import Mathlib

set_option linter.unusedSectionVars false
set_option linter.unusedVariables false

/-!
# httpfsplus: LRU metadata cache, HTTP-backed directory layer and FUSE bridge

A shallow embedding of `src/lrucache.h`, `src/httpfs.cc`, `src/fuseimpl.cc` and
`src/httpclient.h`.

Conventions of the embedding

* `size_t` and `uint64_t` values are natural numbers; where the source computes with
  them the result is reduced modulo `2 ^ 64` (`SIZE_W`).
* `std::string` is a list of bytes; a byte is a natural number below 256.
* `std::unordered_map<Key, list::iterator>` (the index `cache_`) is the list of its
  keys: an iterator stored under key `k` designates the node of `keys_` whose key is `k`.
* `std::list<KeyValuePair>` (the recency list `keys_`) is a list of pairs, front first.
-/

namespace lru11

/-- The number of values of `size_t` on the LP64 targets the program is built for. -/
def SIZE_W : Nat := 2 ^ 64

/-- The state of `lru11::Cache<Key, Value>`: the two limits, the index and the recency list. -/
structure Cache (K V : Type) where
  maxSize_ : Nat
  elasticity_ : Nat
  cache_ : List K
  keys_ : List (K × V)

/-- The record returned by `prune`: the state afterwards, the batch `delelems`
(what `delcb_` is called with) and the `size_t` return value. -/
structure PruneOut (K V : Type) where
  cache : Cache K V
  delelems : List (K × V)
  ret : Nat

namespace Cache

variable {K V : Type} [DecidableEq K]

/-- The constructor `Cache(maxSize, elasticity)`: both containers start empty. -/
def new (maxSize elasticity : Nat) : Cache K V :=
  { maxSize_ := maxSize, elasticity_ := elasticity, cache_ := [], keys_ := [] }

/-- The method `size()`: the size of the index. -/
def size (c : Cache K V) : Nat := c.cache_.length

/-- The method `empty()`. -/
def empty (c : Cache K V) : Bool := c.cache_.isEmpty

/-- The method `contains(k)`: an index lookup. -/
def contains (c : Cache K V) (k : K) : Bool := decide (k ∈ c.cache_)

/-- The method `getMaxSize()`. -/
def getMaxSize (c : Cache K V) : Nat := c.maxSize_

/-- The method `getElasticity()`. -/
def getElasticity (c : Cache K V) : Nat := c.elasticity_

/-- The method `getMaxAllowedSize()`: `maxSize_ + elasticity_` in `size_t` arithmetic. -/
def getMaxAllowedSize (c : Cache K V) : Nat := (c.maxSize_ + c.elasticity_) % SIZE_W

/-- The `while (keys_.size() > tosize)` loop of `prune`: the back node is appended to
`delelems` and popped. -/
def pruneLoop (tosize : Nat) (keys : List (K × V)) (delelems : List (K × V)) :
    List (K × V) × List (K × V) :=
  if h : keys.length > tosize then
    pruneLoop tosize keys.dropLast
      (delelems ++ [keys.getLast (List.ne_nil_of_length_pos (Nat.lt_of_le_of_lt (Nat.zero_le _) h))])
  else (keys, delelems)
termination_by keys.length
decreasing_by
  simp only [List.length_dropLast]
  omega

/-- The method `prune(tosize)`. -/
def prune (c : Cache K V) (tosize : Nat) : PruneOut K V :=
  if c.cache_.length > tosize then
    let r := pruneLoop tosize c.keys_ []
    let index := r.2.foldl (fun m n => m.erase n.1) c.cache_
    { cache := { c with keys_ := r.1, cache_ := index },
      delelems := r.2,
      ret := (index.length + SIZE_W - tosize % SIZE_W) % SIZE_W }
  else { cache := c, delelems := [], ret := 0 }

/-- The method `insert(k, v)`, together with the batch of nodes it evicts (the argument of
`delcb_`; empty when nothing is pruned). -/
def insertAux (c : Cache K V) (k : K) (v : V) : Cache K V × List (K × V) :=
  if k ∈ c.cache_ then
    -- the node of `k` receives the value and is spliced to the front
    ({ c with keys_ := (k, v) :: c.keys_.eraseP (fun n => n.1 == k) }, [])
  else
    let c1 : Cache K V := { c with keys_ := (k, v) :: c.keys_, cache_ := k :: c.cache_ }
    if c1.cache_.length > c1.getMaxAllowedSize then
      let p := c1.prune c1.getMaxSize
      (p.cache, p.delelems)
    else (c1, [])

/-- The method `insert(k, v)`. -/
def insert (c : Cache K V) (k : K) (v : V) : Cache K V := (c.insertAux k v).1

/-- The method `tryGet(kIn, vOut)`: the return value, the out-parameter and the state. -/
def tryGet (c : Cache K V) (kIn : K) (vOut : V) : Bool × V × Cache K V :=
  if kIn ∈ c.cache_ then
    match c.keys_.find? (fun n => n.1 == kIn) with
    | some n => (true, n.2, { c with keys_ := n :: c.keys_.eraseP (fun n => n.1 == kIn) })
    | none => (true, vOut, c) -- an indexed key always has a node
  else (false, vOut, c)

/-- The method `remove(k)`. -/
def remove (c : Cache K V) (k : K) : Bool × Cache K V :=
  if k ∈ c.cache_ then
    (true, { c with keys_ := c.keys_.eraseP (fun n => n.1 == k), cache_ := c.cache_.erase k })
  else (false, c)

/-- The method `clear()`. -/
def clear (c : Cache K V) : Cache K V := (c.prune 0).cache

/-- The recency order: the keys of `keys_`, most recently used first. -/
def order (c : Cache K V) : List K := c.keys_.map Prod.fst

/-- The value the node of `k` holds, if `k` has a node. -/
def valueOf (c : Cache K V) (k : K) : Option V :=
  (c.keys_.find? (fun n => n.1 == k)).map Prod.snd

/-- The representation invariant: the index holds exactly the keys of the recency list,
each once. It holds of the empty cache and every method preserves it. -/
def Inv (c : Cache K V) : Prop :=
  c.cache_.Perm (c.keys_.map Prod.fst) ∧ (c.keys_.map Prod.fst).Nodup

/-- The cache holds the value `e` under the key `k`. -/
def Holds (c : Cache K V) (k : K) (e : V) : Prop :=
  c.contains k = true ∧ c.valueOf k = some e

/-- A run of `insert` calls, in order. -/
def insertAll (c : Cache K V) (ops : List (K × V)) : Cache K V :=
  ops.foldl (fun c kv => c.insert kv.1 kv.2) c

end Cache

end lru11

/-! ## `src/httpfs.cc` -/

namespace httpfs

/-- The type `std::string`: a sequence of bytes. -/
abbrev Bytes := List Nat

/-- An ASCII string literal as bytes. -/
def ascii (s : String) : Bytes := s.toList.map Char.toNat

/-- The table `hcharset`. -/
def hcharset : Bytes := ascii "0123456789abcdef"

/-- The value of a `char` holding byte `b` (a signed type on the x86 targets; with an
unsigned `char` the three range tests of `urienc` have the same outcome). -/
def charVal (b : Nat) : Int := if b % 256 < 128 then (b % 256 : Nat) else ((b % 256 : Nat) : Int) - 256

/-- The test `(c >= 'a' && c <= 'z') || (c >= 'A' && c <= 'Z') || (c >= '0' && c <= '9')`. -/
def isAlnum (c : Nat) : Bool :=
  (decide (charVal c ≥ 97) && decide (charVal c ≤ 122))
    || (decide (charVal c ≥ 65) && decide (charVal c ≤ 90))
    || (decide (charVal c ≥ 48) && decide (charVal c ≤ 57))

/-- One iteration of the loop of `urienc`: what byte `c` appends to `ret`.
`(uint8_t)c >> 4` is `c % 256 / 16` and `(uint8_t)c & 15` is `c % 256 % 16`. -/
def uriencStep (ret : Bytes) (c : Nat) : Bytes :=
  if isAlnum c then ret ++ [c]
  else ret ++ [37, hcharset.getD (c % 256 / 16) 0, hcharset.getD (c % 256 % 16) 0]

/-- The function `urienc`. -/
def urienc (s : Bytes) : Bytes := s.foldl uriencStep []

/-- The spec's words: an ASCII letter or digit. -/
def specIsAlnum (b : Nat) : Bool :=
  (decide (48 ≤ b) && decide (b ≤ 57)) || (decide (65 ≤ b) && decide (b ≤ 90))
    || (decide (97 ≤ b) && decide (b ≤ 122))

/-- The spec's words: the lowercase hexadecimal digit of a nibble. -/
def specHexDigit (d : Nat) : Nat := if d < 10 then 48 + d else 87 + d

/-- The spec's words: an alphanumeric byte stands for itself, any other byte is `%`
followed by its two lowercase hexadecimal digits, high nibble first. -/
def specEncByte (b : Nat) : Bytes :=
  if specIsAlnum b then [b] else [37, specHexDigit (b / 16), specHexDigit (b % 16)]

/-- A value of `nlohmann::json`. A `number_float` is represented by the value its conversion
to `uint64_t` yields, which is all the program observes of it. -/
inductive Json where
  | null
  | boolean (b : Bool)
  | number_unsigned (n : Nat)
  | number_integer (i : Int)
  | number_float (asU64 : Nat)
  | string (s : Bytes)
  | array (a : List Json)
  | object (o : List (Bytes × Json))

/-- The exceptions of `nlohmann::json` the program can raise: `type_error` with its id
(302: wrong type in `get`, 305: `operator[]` on a value of the wrong type). -/
inductive JsonError where
  | type_error (id : Nat)
deriving DecidableEq, Repr

/-- How a call ends when it does not return: an exception of `nlohmann::json` leaves it
(nothing in the program catches one), or it never ends. -/
inductive Abort where
  | threw (e : JsonError)
  | loops
deriving DecidableEq, Repr

/-- The number of values of the 32-bit `unsigned` loop index of `parse_response`. -/
def UINT_W : Nat := 2 ^ 32

namespace Json

/-- The member `size()`: 0 for null, the element count of an array or object, 1 otherwise. -/
def size : Json → Nat
  | null => 0
  | array a => a.length
  | object o => o.length
  | _ => 1

/-- The non-const `operator[](size_type idx)`: a null becomes an array, an array is filled
with nulls up to `idx`, any other value raises `type_error` 305. -/
def atIdx (j : Json) (idx : Nat) : Except JsonError Json :=
  match j with
  | null => .ok null
  | array a => .ok (a.getD idx null)
  | _ => .error (.type_error 305)

/-- The non-const `operator[](const char* key)`: a null becomes an object, a missing member
is created as null, any value other than an object raises `type_error` 305. -/
def atKey (j : Json) (key : Bytes) : Except JsonError Json :=
  match j with
  | null => .ok null
  | object o => .ok ((o.lookup key).getD null)
  | _ => .error (.type_error 305)

/-- The conversion `get<std::string>()`: `type_error` 302 unless the value is a string. -/
def getString (j : Json) : Except JsonError Bytes :=
  match j with
  | string s => .ok s
  | _ => .error (.type_error 302)

/-- The conversion `get<uint64_t>()`: a `static_cast` of any of the three number types,
`type_error` 302 for every other value. -/
def getU64 (j : Json) : Except JsonError Nat :=
  match j with
  | number_unsigned n => .ok (n % 2 ^ 64)
  | number_integer i => .ok (i % 2 ^ 64).toNat
  | number_float u => .ok (u % 2 ^ 64)
  | _ => .error (.type_error 302)

/-- The comparison `j == "literal"`: true exactly for a string with those bytes. -/
def eqString (j : Json) (lit : Bytes) : Bool :=
  match j with
  | string s => decide (s = lit)
  | _ => false

end Json

/-- The fields of `struct stat` the program writes; every other field is zeroed by `memset`. -/
structure Stat where
  st_ino : Nat
  st_mode : Nat
  st_nlink : Nat
  st_uid : Nat
  st_gid : Nat
  st_size : Int
  st_atime : Int
  st_mtime : Int
  st_ctime : Int
deriving DecidableEq, Repr

/-- The constant `S_IRUSR`. -/
def S_IRUSR : Nat := 0o400
/-- The constant `S_IRGRP`. -/
def S_IRGRP : Nat := 0o040
/-- The constant `S_IFDIR`. -/
def S_IFDIR : Nat := 0o040000
/-- The constant `S_IFREG`. -/
def S_IFREG : Nat := 0o100000
/-- The mask `S_IFMT` of the file-type bits. -/
def S_IFMT : Nat := 0o170000
/-- The conversion of a `uint64_t` to the signed 64-bit `off_t`. -/
def toOffT (n : Nat) : Int := if n % 2 ^ 64 < 2 ^ 63 then (n % 2 ^ 64 : Nat) else ((n % 2 ^ 64 : Nat) : Int) - 2 ^ 64

/-- The conversion of a `size_t` to `int` (32 bits). -/
def toCInt (n : Nat) : Int := if n % 2 ^ 32 < 2 ^ 31 then (n % 2 ^ 32 : Nat) else ((n % 2 ^ 32 : Nat) : Int) - 2 ^ 32

/-- The assignment `m[k] = v` on a `std::map`: the value of an existing key is replaced,
a new key is added. -/
def mapAssign {β : Type} (m : List (Bytes × β)) (k : Bytes) (v : β) : List (Bytes × β) :=
  match m with
  | [] => [(k, v)]
  | (k0, v0) :: rest => if k0 = k then (k, v) :: rest else (k0, v0) :: mapAssign rest k v

/-- The class `HttpFSServer::DirEntry`. -/
structure DirEntry where
  entries : List (Bytes × Stat)
  fetch_time : Int
deriving DecidableEq, Repr

/-- What one call receives from outside the program: the process ids, the composite
`strptime` + `mktime` of the C library (local time zone), the text parser
`nlohmann::json::parse(text, nullptr, false)` (`none` is a discarded result), the replies of
`readclient.get`, and the values the `time(NULL)` reads return: `tValid` at the validity
test, `tPrefetch` at the prefetch test, `tParse` inside `parse_response`. -/
structure World where
  uid : Nat
  gid : Nat
  mktime : Bytes → Int
  json_parse : Bytes → Option Json
  get : Bytes → Nat → Nat → Bool × Bytes
  tValid : Int
  tPrefetch : Int
  tParse : Int

/-- The body of the loop of `parse_response` for the element `jresp[i]`. -/
def parseElem (w : World) (jresp : Json) (entries : List (Bytes × Stat)) (i : Nat) :
    Except JsonError (List (Bytes × Stat)) := do
  let fname ← (← (← jresp.atIdx i).atKey (ascii "name")).getString
  let isdir := (← (← jresp.atIdx i).atKey (ascii "type")).eqString (ascii "directory")
  let mtime := w.mktime (← (← (← jresp.atIdx i).atKey (ascii "mtime")).getString)
  let fst : Stat :=
    { st_ino := 0
      st_mode := S_IRUSR ||| S_IRGRP ||| (if isdir then S_IFDIR else S_IFREG)
      st_atime := mtime
      st_mtime := mtime
      st_ctime := mtime
      st_nlink := 1
      st_uid := w.uid
      st_gid := w.gid
      st_size := 0 }
  if !isdir then
    let sz ← (← (← jresp.atIdx i).atKey (ascii "size")).getU64
    pure (mapAssign entries fname { fst with st_size := toOffT sz })
  else
    pure (mapAssign entries fname fst)

/-- The loop `for (unsigned i = 0; i < jresp.size(); i++)` of `parse_response`, from the
index `i` on: the test compares the 32-bit index with the 64-bit size, and `i++` wraps at
`2 ^ 32`. The first argument bounds the number of tests made: the test fails only at
`i = jresp.size()`, which the index reaches after `jresp.size()` passes when the size fits
32 bits and never otherwise; and a body that raised nothing for an element raises nothing
when the wrapped index comes back to it. So a loop that has not ended within
`jresp.size() + 1` tests does not end. -/
def parseLoop (w : World) (jresp : Json) :
    Nat → Nat → List (Bytes × Stat) → Except Abort (List (Bytes × Stat))
  | 0, _, _ => .error .loops
  | tests + 1, i, entries =>
    if i < jresp.size then
      match parseElem w jresp entries i with
      | .error e => .error (.threw e)
      | .ok entries2 => parseLoop w jresp tests ((i + 1) % UINT_W) entries2
    else .ok entries

/-- The function `parse_response`. -/
def parse_response (w : World) (jresp : Json) : Except Abort DirEntry :=
  match parseLoop w jresp (jresp.size + 1) 0 [] with
  | .error a => .error a
  | .ok entries => .ok { entries := entries, fetch_time := w.tParse }

/-- The state of `HttpFSServer` (the two HTTP clients are represented by `World.get` and
by the calls recorded in the results). -/
structure HttpFSServer where
  url : Bytes
  metacachettl : Nat
  metacache : lru11.Cache Bytes DirEntry

/-- The constructor `HttpFSServer(url, metacachettl)`; the TTL is an `unsigned`. -/
def HttpFSServer.new (url : Bytes) (metacachettl : Nat) : HttpFSServer :=
  { url := url, metacachettl := metacachettl % 2 ^ 32, metacache := lru11.Cache.new (4 * 1024) 512 }

/-- A request handed to `readclient`: the blocking `get` or the asynchronous `doGET`. -/
inductive HttpCall where
  | get (url : Bytes) (offset size : Nat)
  | doGET (url : Bytes) (offset size : Nat)
deriving DecidableEq, Repr

/-- What a call of `readDir` leaves: the return value, or how the call ends without one,
the out-parameter `entry`, the server state and the requests made, in order. -/
structure ReadDirOut where
  result : Except Abort Bool
  entry : DirEntry
  server : HttpFSServer
  calls : List HttpCall

/-- The completion callback of the asynchronous refresh submitted by `readDir`, run by the
HTTP worker with the transport status and the accumulated body. -/
def refreshDone (w : World) (s : HttpFSServer) (path : Bytes) (ok : Bool) (jsresp : Bytes) :
    Except Abort HttpFSServer :=
  match w.json_parse jsresp with
  | some js =>
    if ok then do
      let d ← parse_response w js
      pure { s with metacache := s.metacache.insert path d }
    else pure s
  | none => pure s

/-- The second half of `readDir`: the synchronous fetch, parse and cache fill. -/
def readDirFetch (w : World) (s : HttpFSServer) (path : Bytes) (entry : DirEntry) : ReadDirOut :=
  let ret := w.get (s.url ++ urienc path) 0 0
  let calls := [HttpCall.get (s.url ++ urienc path) 0 0]
  if !ret.1 then
    { result := .ok false, entry := entry, server := s, calls := calls }
  else
    match w.json_parse ret.2 with
    | none => { result := .ok false, entry := entry, server := s, calls := calls }
    | some jresp =>
      match parse_response w jresp with
      | .error e => { result := .error e, entry := entry, server := s, calls := calls }
      | .ok d =>
        { result := .ok true, entry := d,
          server := { s with metacache := s.metacache.insert path d }, calls := calls }

/-- The method `HttpFSServer::readDir(path, entry)`. -/
def readDir (w : World) (s : HttpFSServer) (path : Bytes) (entry : DirEntry) : ReadDirOut :=
  let g := s.metacache.tryGet path entry
  if g.1 then
    if g.2.1.fetch_time > w.tValid - (s.metacachettl : Int) then
      { result := .ok true, entry := g.2.1, server := { s with metacache := g.2.2 },
        calls :=
          if g.2.1.fetch_time < w.tPrefetch - ((s.metacachettl / 2 : Nat) : Int) then
            [HttpCall.doGET (s.url ++ urienc path) 0 0]
          else [] }
    else
      readDirFetch w { s with metacache := (g.2.2.remove path).2 } path g.2.1
  else
    readDirFetch w { s with metacache := g.2.2 } path g.2.1

/-- The method `HttpFSServer::readBlock(path, buf, offset, size)`: the `int` returned, the
buffer afterwards and the request made. -/
def readBlock (w : World) (s : HttpFSServer) (path : Bytes) (buf : Bytes) (offset size : Nat) :
    Int × Bytes × List HttpCall :=
  let ret := w.get (s.url ++ urienc path) offset size
  if !ret.1 || decide (ret.2.length > size) then
    (-1, buf, [HttpCall.get (s.url ++ urienc path) offset size])
  else
    (toCInt ret.2.length, ret.2 ++ buf.drop ret.2.length,
      [HttpCall.get (s.url ++ urienc path) offset size])

/-- A world in which every GET is answered by `reply`, every body parses to `parsed`, every
clock read returns `now` and every date converts to `1704067200`. -/
def worldWith (reply : Bool × Bytes) (parsed : Option Json) (now : Int) : World :=
  { uid := 1000, gid := 1000, mktime := fun _ => 1704067200, json_parse := fun _ => parsed,
    get := fun _ _ _ => reply, tValid := now, tPrefetch := now, tParse := now }

/-- A freshly constructed server with a TTL of 60 seconds. -/
def server0 : HttpFSServer := HttpFSServer.new (ascii "http://host") 60

/-- A directory snapshot with one regular file `b.txt` of 11 bytes, fetched at `t`. -/
def snapshot (t : Int) : DirEntry :=
  { entries := [(ascii "b.txt",
      { st_ino := 0, st_mode := S_IRUSR ||| S_IRGRP ||| S_IFREG, st_nlink := 1, st_uid := 1000,
        st_gid := 1000, st_size := 11, st_atime := 1704067200, st_mtime := 1704067200,
        st_ctime := 1704067200 })],
    fetch_time := t }

/-- The server `server0` whose cache holds `snapshot t` for the path `/`. -/
def serverWith (t : Int) : HttpFSServer :=
  { server0 with
    metacache := { server0.metacache with cache_ := [ascii "/"], keys_ := [(ascii "/", snapshot t)] } }

/-- The spec's words: the field `key` of an autoindex element, when the element is an
object that has it. -/
def specField (el : Json) (key : Bytes) : Option Json :=
  match el with
  | .object o => o.lookup key
  | _ => none

/-- The spec's words: the string a field holds. -/
def specString (el : Json) (key : Bytes) : Option Bytes :=
  match specField el key with
  | some (.string x) => some x
  | _ => none

/-- The spec's words: the `name` of an element. -/
def elemName (el : Json) : Option Bytes := specString el (ascii "name")

/-- The spec's words: the `type` of an element. -/
def elemType (el : Json) : Option Bytes := specString el (ascii "type")

/-- The spec's words: the `mtime` of an element. -/
def elemMtime (el : Json) : Option Bytes := specString el (ascii "mtime")

/-- The spec's words: the unsigned `size` of an element. -/
def elemSize (el : Json) : Option Nat :=
  match specField el (ascii "size") with
  | some (.number_unsigned z) => some z
  | _ => none

/-- The spec's words: the element is a directory when its `type` is `directory`. -/
def elemIsDir (el : Json) : Bool := decide (elemType el = some (ascii "directory"))

/-- The spec's words: a well-formed element has a string `name`, `type` and `mtime`, and
an unsigned (64-bit) `size` when its type is not `directory`. -/
def wellFormedElem (el : Json) : Bool :=
  (elemName el).isSome && (elemType el).isSome && (elemMtime el).isSome &&
    (elemIsDir el ||
      match elemSize el with
      | some z => decide (z < 2 ^ 64)
      | none => false)

/-- The spec's words: the name and the `FileMeta` of a well-formed element, with the size
stored in the signed `st_size`. -/
def specEntry (w : World) (el : Json) : Bytes × Stat :=
  ((elemName el).getD [],
    { st_ino := 0
      st_mode := S_IRUSR ||| S_IRGRP ||| (if elemIsDir el then S_IFDIR else S_IFREG)
      st_atime := w.mktime ((elemMtime el).getD [])
      st_mtime := w.mktime ((elemMtime el).getD [])
      st_ctime := w.mktime ((elemMtime el).getD [])
      st_nlink := 1
      st_uid := w.uid
      st_gid := w.gid
      st_size := if elemIsDir el then 0 else toOffT ((elemSize el).getD 0) })

end httpfs

/-! ## `src/fuseimpl.cc` -/

namespace fuseimpl

open httpfs

/-- The errno value `EIO`. -/
def EIO : Int := 5
/-- The errno value `ENOENT`. -/
def ENOENT : Int := 2
/-- The errno value `EACCES`. -/
def EACCES : Int := 13

/-- The member `std::string::find_last_of(c)`: the last position of `c`, `none` for `npos`. -/
def find_last_of : Bytes → Nat → Option Nat
  | [], _ => none
  | b :: bs, c =>
    match find_last_of bs c with
    | some p => some (p + 1)
    | none => if b = c then some 0 else none

/-- The function `pathdecompose`. -/
def pathdecompose (path : Bytes) : Bytes × Bytes :=
  match find_last_of path 47 with
  | none => (ascii "/", path)
  | some p => (path.take (p + 1), path.drop (p + 1))

/-- What a call of `httpfs_getattr` leaves: the return value, or how the call ends without
one, the buffer `*st`, the server state, the HTTP requests made and the paths `readDir` was
called with. -/
structure GetattrOut where
  ret : Except Abort Int
  st : Stat
  server : HttpFSServer
  calls : List HttpCall
  readDirs : List Bytes

/-- The `stat` that `httpfs_getattr` writes for the root. -/
def rootStat (w : World) : Stat :=
  { st_ino := 0
    st_mode := S_IRUSR ||| S_IRGRP ||| S_IFDIR
    st_atime := 0
    st_mtime := 0
    st_ctime := 0
    st_nlink := 1
    st_uid := w.uid
    st_gid := w.gid
    st_size := 0 }

/-- The function `httpfs_getattr(path, st)`; `entry0` is the local `entry` before
`readDir` fills it. -/
def httpfs_getattr (w : World) (s : HttpFSServer) (path : Bytes) (st : Stat)
    (entry0 : DirEntry) : GetattrOut :=
  if path = ascii "/" then
    { ret := .ok 0, st := rootStat w, server := s, calls := [], readDirs := [] }
  else
    let dirfile := pathdecompose path
    let r := readDir w s dirfile.1 entry0
    match r.result with
    | .error e =>
      { ret := .error e, st := st, server := r.server, calls := r.calls, readDirs := [dirfile.1] }
    | .ok false =>
      { ret := .ok (- EIO), st := st, server := r.server, calls := r.calls, readDirs := [dirfile.1] }
    | .ok true =>
      -- `count` is zero exactly when the lookup of `at` finds nothing
      match r.entry.entries.lookup dirfile.2 with
      | none =>
        { ret := .ok (-ENOENT), st := st, server := r.server, calls := r.calls,
          readDirs := [dirfile.1] }
      | some m =>
        { ret := .ok 0, st := m, server := r.server, calls := r.calls, readDirs := [dirfile.1] }

/-- The function `httpfs_read(path, buf, size, offset)`; the signed `offset` is passed as
a `uint64_t`. -/
def httpfs_read (w : World) (s : HttpFSServer) (path : Bytes) (buf : Bytes) (size : Nat)
    (offset : Int) : Int × Bytes × List HttpCall :=
  let r := readBlock w s path buf (offset % 2 ^ 64).toNat size
  if r.1 < 0 then (- EIO, r.2.1, r.2.2) else r

end fuseimpl

/-! ## `src/httpclient.h`

The worker thread and the submitting threads share only `rqueue`, which both touch under
`rqueue_mutex`; `request_set` and the multi handle are touched by the worker alone, and by
the destructor once the worker is joined. A run is therefore a sequence of three kinds of
events: a submission (`doGET`), one iteration of the loop of `work`, and the destructor. A
submission that arrives while the worker is inside an iteration changes `rqueue` only, which
the rest of the iteration does not read (`workMsg_doGET` below), so it is ordered before or
after that iteration. -/

namespace httpclient

/-- The value `CURLMSG_DONE`. -/
def CURLMSG_DONE : Nat := 1

/-- The value `CURLE_OK`. -/
def CURLE_OK : Nat := 0

/-- The fields of a `CURLMsg` the worker reads: the kind of message, the easy handle (its
address) and `data.result`. -/
structure CURLMsg where
  msg : Nat
  easy_handle : Nat
  result : Nat
deriving DecidableEq, Repr

/-- The class `t_query`. A callback is represented by whether it is set; `id` tells the
requests apart: it is the number of requests submitted before this one. -/
structure t_query where
  id : Nat
  wrcb : Bool
  donecb : Bool
deriving DecidableEq, Repr

/-- The assignment `m[k] = v` on a `std::map<CURL*, ...>`. -/
def assign {β : Type} (m : List (Nat × β)) (k : Nat) (v : β) : List (Nat × β) :=
  match m with
  | [] => [(k, v)]
  | (k0, v0) :: rest => if k0 = k then (k, v) :: rest else (k0, v0) :: assign rest k v

/-- The state of `HttpClient`: the two maps, the handles added to `multi_handle`, the flag
`end`, and two records of the run: how many requests were submitted, and the calls of
completion callbacks made so far (request and `okcode`), oldest first. -/
structure HttpClient where
  rqueue : List (Nat × t_query)
  request_set : List (Nat × t_query)
  multi_handle : List Nat
  end_ : Bool
  submitted : Nat
  done : List (Nat × Bool)
deriving DecidableEq, Repr

/-- The constructor: nothing is queued or in flight, the worker runs. -/
def HttpClient.new : HttpClient :=
  { rqueue := [], request_set := [], multi_handle := [], end_ := false, submitted := 0,
    done := [] }

/-- The method `doQuery(req, url, userq)`: the options go to the handle, the query is
stored under the handle in `rqueue` (under the mutex), the pipe is written. -/
def doQuery (s : HttpClient) (req : Nat) (userq : t_query) : HttpClient :=
  { s with rqueue := assign s.rqueue req userq, submitted := s.submitted + 1 }

/-- The method `doGET(url, offset, maxsize, wrcb, donecb)`; `req` is the handle that
`curl_easy_init` returns. The URL and the range are options of the handle. -/
def doGET (s : HttpClient) (req : Nat) (wrcb donecb : Bool) : HttpClient :=
  doQuery s req { id := s.submitted, wrcb := wrcb, donecb := donecb }

/-- The first block of the loop of `work`: every queued request is added to the multi
handle and moved to `request_set`; `rqueue` is cleared. -/
def workDrain (s : HttpClient) : HttpClient :=
  { s with
    multi_handle :=
      s.rqueue.foldl (fun m req => if req.1 ∈ m then m else m ++ [req.1]) s.multi_handle
    request_set := s.rqueue.foldl (fun rs req => assign rs req.1 req.2) s.request_set
    rqueue := [] }

/-- The body of the `curl_multi_info_read` loop for one message. -/
def workMsg (s : HttpClient) (msg : CURLMsg) : HttpClient :=
  if msg.msg = CURLMSG_DONE then
    match s.request_set.lookup msg.easy_handle with
    | some uq =>
      { s with
        multi_handle := s.multi_handle.filter (fun h => decide (h ≠ msg.easy_handle))
        done :=
          if uq.donecb then s.done ++ [(uq.id, decide (msg.result = CURLE_OK))] else s.done
        request_set := s.request_set.filter (fun req => decide (req.1 ≠ msg.easy_handle)) }
    | none =>
      { s with multi_handle := s.multi_handle.filter (fun h => decide (h ≠ msg.easy_handle)) }
  else s

/-- One pass of the loop `while (!end)` of `work`; `msgs` are the messages
`curl_multi_info_read` delivers in this pass. -/
def work (s : HttpClient) (msgs : List CURLMsg) : HttpClient :=
  if s.end_ then s else msgs.foldl workMsg (workDrain s)

/-- The destructor: `end` is set, the worker is joined, the handles still registered or
queued are removed and freed, the multi handle is freed, and the maps go with the
object. No callback is called. -/
def destructor (s : HttpClient) : HttpClient :=
  { s with end_ := true, multi_handle := [], request_set := [], rqueue := [] }

/-- An event of a run of the client. -/
inductive Event where
  | submit (req : Nat) (wrcb donecb : Bool)
  | iterate (msgs : List CURLMsg)
  | shutdown
deriving DecidableEq, Repr

/-- The effect of one event. -/
def step (s : HttpClient) (ev : Event) : HttpClient :=
  match ev with
  | .submit req wrcb donecb => doGET s req wrcb donecb
  | .iterate msgs => work s msgs
  | .shutdown => destructor s

/-- The effect of a run, from the state `s`. -/
def run (s : HttpClient) (evs : List Event) : HttpClient := evs.foldl step s

/-- The requests held in a map. -/
def ids (m : List (Nat × t_query)) : List Nat := m.map (fun req => req.2.id)

/-- The requests whose completion callback was called, oldest call first. -/
def completed (s : HttpClient) : List Nat := s.done.map Prod.fst

/-- All requests the client has a record of: queued, in flight, or completed. -/
def known (s : HttpClient) : List Nat := ids s.rqueue ++ ids s.request_set ++ completed s

/-- What every reachable state satisfies: no request is recorded twice, and every recorded
request was submitted. -/
def Inv (s : HttpClient) : Prop := (known s).Nodup ∧ ∀ x ∈ known s, x < s.submitted

end httpclient

/-! ## Properties of the LRU cache -/

namespace lru11.Cache

variable {K V : Type}

theorem pruneLoop_eq (tosize : Nat) (keys delelems : List (K × V)) :
    pruneLoop tosize keys delelems
      = (keys.take tosize, delelems ++ (keys.drop tosize).reverse) := by
  generalize hn : keys.length = n
  induction n generalizing keys delelems with
  | zero =>
    have : keys = [] := List.length_eq_zero.mp hn
    subst this
    unfold pruneLoop
    simp
  | succ n ih =>
    unfold pruneLoop
    by_cases h : keys.length > tosize
    · have hne : keys ≠ [] := by
        intro h0; subst h0; simp at hn
      rw [dif_pos h]
      have hlen : keys.dropLast.length = n := by simp [hn]
      rw [ih _ _ hlen]
      have hsplit : keys = keys.dropLast ++ [keys.getLast hne] :=
        (List.dropLast_append_getLast hne).symm
      have hle : tosize ≤ keys.dropLast.length := by omega
      have h1 : keys.take tosize = keys.dropLast.take tosize := by
        conv_lhs => rw [hsplit]
        exact List.take_append_of_le_length hle
      have h2 : keys.drop tosize = keys.dropLast.drop tosize ++ [keys.getLast hne] := by
        conv_lhs => rw [hsplit]
        exact List.drop_append_of_le_length hle
      rw [h1, h2]
      simp
    · rw [dif_neg h]
      have hle : keys.length ≤ tosize := by omega
      simp [List.take_of_length_le hle, List.drop_of_length_le hle]

variable [DecidableEq K]

theorem map_fst_eraseP (k : K) (l : List (K × V)) :
    (l.eraseP (fun n => n.1 == k)).map Prod.fst = (l.map Prod.fst).erase k := by
  induction l with
  | nil => rfl
  | cons a t ih =>
    by_cases h : a.1 = k
    · simp [List.eraseP_cons, List.erase_cons, h]
    · simp [List.eraseP_cons, List.erase_cons, h, ih]

theorem foldl_erase_perm (L : List K) : ∀ (index A : List K),
    index.Perm (A ++ L) → (L.foldl List.erase index).Perm A := by
  induction L with
  | nil => intro index A h; simpa using h
  | cons x xs ih =>
    intro index A h
    simp only [List.foldl_cons]
    apply ih
    have h1 : index.Perm (x :: (A ++ xs)) := h.trans List.perm_middle
    have h2 := h1.erase x
    simpa using h2

theorem inv_length {c : Cache K V} (h : c.Inv) : c.cache_.length = c.keys_.length := by
  have := h.1.length_eq
  simpa using this

theorem inv_mem {c : Cache K V} (h : c.Inv) (k : K) : k ∈ c.cache_ ↔ k ∈ c.order :=
  h.1.mem_iff

theorem inv_new (m e : Nat) : (Cache.new m e : Cache K V).Inv := by
  simp [Inv, Cache.new]

theorem prune_keys {c : Cache K V} (h : c.Inv) (t : Nat) :
    (c.prune t).cache.keys_ = c.keys_.take t := by
  unfold prune
  split
  · simp [pruneLoop_eq]
  · rename_i hle
    have := inv_length h
    rw [List.take_of_length_le (by omega)]

theorem prune_delelems {c : Cache K V} (h : c.Inv) (t : Nat) :
    (c.prune t).delelems = (c.keys_.drop t).reverse := by
  unfold prune
  split
  · simp [pruneLoop_eq]
  · rename_i hle
    have := inv_length h
    rw [List.drop_of_length_le (by omega)]
    rfl

theorem prune_limits (c : Cache K V) (t : Nat) :
    (c.prune t).cache.maxSize_ = c.maxSize_ ∧ (c.prune t).cache.elasticity_ = c.elasticity_ := by
  unfold prune
  split <;> simp

theorem prune_inv {c : Cache K V} (h : c.Inv) (t : Nat) : (c.prune t).cache.Inv := by
  have hk := prune_keys h t
  refine ⟨?_, ?_⟩
  · rw [hk]
    unfold prune
    split
    · simp only [pruneLoop_eq, List.nil_append]
      rw [← List.foldl_map]
      apply foldl_erase_perm
      refine h.1.trans ?_
      have : c.keys_.map Prod.fst
          = (c.keys_.take t).map Prod.fst ++ (c.keys_.drop t).map Prod.fst := by
        rw [← List.map_append, List.take_append_drop]
      rw [this, List.map_reverse]
      exact List.Perm.append_left _ (List.reverse_perm _).symm
    · rename_i hle
      have := inv_length h
      rw [List.take_of_length_le (by omega)]
      exact h.1
  · rw [hk, List.map_take]
    exact h.2.sublist (List.take_sublist _ _)

theorem prune_size {c : Cache K V} (h : c.Inv) (t : Nat) :
    (c.prune t).cache.size = min t c.size := by
  have h1 := inv_length (prune_inv h t)
  have h2 := inv_length h
  rw [prune_keys h t, List.length_take] at h1
  unfold size
  omega

theorem insertAux_hit {c : Cache K V} {k : K} (v : V) (hk : k ∈ c.cache_) :
    c.insertAux k v
      = ({ c with keys_ := (k, v) :: c.keys_.eraseP (fun n => n.1 == k) }, []) := by
  simp [insertAux, hk]

theorem insertAux_grow {c : Cache K V} {k : K} (v : V) (hk : k ∉ c.cache_)
    (hs : ¬ c.size + 1 > c.getMaxAllowedSize) :
    c.insertAux k v
      = ({ c with keys_ := (k, v) :: c.keys_, cache_ := k :: c.cache_ }, []) := by
  simp only [size, getMaxAllowedSize] at hs
  simp [insertAux, hk, getMaxAllowedSize, hs]

theorem insertAux_prune {c : Cache K V} {k : K} (v : V) (hk : k ∉ c.cache_)
    (hs : c.size + 1 > c.getMaxAllowedSize) :
    c.insertAux k v
      = ((prune { c with keys_ := (k, v) :: c.keys_, cache_ := k :: c.cache_ } c.maxSize_).cache,
         (prune { c with keys_ := (k, v) :: c.keys_, cache_ := k :: c.cache_ } c.maxSize_).delelems) := by
  simp only [size, getMaxAllowedSize] at hs
  simp [insertAux, hk, getMaxAllowedSize, getMaxSize, hs]

theorem eraseP_absent {c : Cache K V} (h : c.Inv) {k : K} (hk : k ∉ c.cache_) :
    c.keys_.eraseP (fun n => n.1 == k) = c.keys_ := by
  apply List.eraseP_of_forall_not
  intro a ha hak
  apply hk
  rw [inv_mem h]
  have : a.1 = k := by simpa using hak
  rw [← this]
  exact List.mem_map_of_mem _ ha

theorem erase_absent {c : Cache K V} (h : c.Inv) {k : K} (hk : k ∉ c.cache_) :
    c.order.erase k = c.order := by
  apply List.erase_of_not_mem
  rwa [← inv_mem h]

theorem inv_touch {c : Cache K V} (h : c.Inv) {k : K} (v : V) (hk : k ∈ c.cache_) :
    Inv { c with keys_ := (k, v) :: c.keys_.eraseP (fun n => n.1 == k) } := by
  have hmem : k ∈ c.keys_.map Prod.fst := (inv_mem h k).mp hk
  have hp : (c.keys_.map Prod.fst).Perm (k :: (c.keys_.map Prod.fst).erase k) :=
    List.perm_cons_erase hmem
  refine ⟨?_, ?_⟩
  · simp only [List.map_cons, map_fst_eraseP]
    exact h.1.trans hp
  · simp only [List.map_cons, map_fst_eraseP]
    exact hp.nodup_iff.mp h.2

theorem inv_push {c : Cache K V} (h : c.Inv) {k : K} (v : V) (hk : k ∉ c.cache_) :
    Inv { c with keys_ := (k, v) :: c.keys_, cache_ := k :: c.cache_ } := by
  refine ⟨?_, ?_⟩
  · simpa using h.1
  · simp only [List.map_cons, List.nodup_cons]
    exact ⟨fun hm => hk ((inv_mem h k).mpr hm), h.2⟩

theorem insert_inv {c : Cache K V} (h : c.Inv) (k : K) (v : V) : (c.insert k v).Inv := by
  unfold insert
  by_cases hk : k ∈ c.cache_
  · rw [insertAux_hit v hk]
    exact inv_touch h v hk
  · by_cases hs : c.size + 1 > c.getMaxAllowedSize
    · rw [insertAux_prune v hk hs]
      exact prune_inv (inv_push h v hk) _
    · rw [insertAux_grow v hk hs]
      exact inv_push h v hk

theorem insert_limits (c : Cache K V) (k : K) (v : V) :
    (c.insert k v).maxSize_ = c.maxSize_ ∧ (c.insert k v).elasticity_ = c.elasticity_ := by
  unfold insert
  by_cases hk : k ∈ c.cache_
  · rw [insertAux_hit v hk]
    simp
  · by_cases hs : c.size + 1 > c.getMaxAllowedSize
    · rw [insertAux_prune v hk hs]
      exact prune_limits _ _
    · rw [insertAux_grow v hk hs]
      simp

theorem insert_size {c : Cache K V} (h : c.Inv) (k : K) (v : V) :
    (c.insert k v).size =
      if k ∈ c.cache_ then c.size
      else if c.size + 1 > c.getMaxAllowedSize then min c.maxSize_ (c.size + 1)
      else c.size + 1 := by
  unfold insert
  by_cases hk : k ∈ c.cache_
  · rw [insertAux_hit v hk]
    simp [hk, size]
  · by_cases hs : c.size + 1 > c.getMaxAllowedSize
    · rw [insertAux_prune v hk hs, prune_size (inv_push h v hk)]
      rw [if_neg hk, if_pos hs]
      simp [size]
    · rw [insertAux_grow v hk hs]
      rw [if_neg hk, if_neg hs]
      simp [size]

/-- What every cache built by `insert` calls from an empty one satisfies. -/
theorem insertAll_reach (m e : Nat) (ops : List (K × V)) :
    ∀ c : Cache K V, c.Inv → c.maxSize_ = m → c.elasticity_ = e →
      c.size ≤ max m ((m + e) % SIZE_W) →
      (insertAll c ops).Inv ∧ (insertAll c ops).maxSize_ = m ∧
        (insertAll c ops).elasticity_ = e ∧
        (insertAll c ops).size ≤ max m ((m + e) % SIZE_W) := by
  induction ops with
  | nil => intro c h1 h2 h3 h4; exact ⟨h1, h2, h3, h4⟩
  | cons kv rest ih =>
    intro c h1 h2 h3 h4
    have hl := insert_limits c kv.1 kv.2
    apply ih (c.insert kv.1 kv.2) (insert_inv h1 _ _) (hl.1.trans h2) (hl.2.trans h3)
    rw [insert_size h1]
    have hA : c.getMaxAllowedSize = (m + e) % SIZE_W := by simp [getMaxAllowedSize, h2, h3]
    rw [hA, h2]
    split
    · exact h4
    · split <;> omega

theorem insertAux_keys {c : Cache K V} (h : c.Inv) (k : K) (v : V) :
    ((c.insertAux k v).1.keys_ = (k, v) :: c.keys_.eraseP (fun n => n.1 == k)
        ∧ (c.insertAux k v).2 = [])
      ∨ (k ∉ c.cache_ ∧ c.size + 1 > c.getMaxAllowedSize
        ∧ (c.insertAux k v).1.keys_
            = ((k, v) :: c.keys_.eraseP (fun n => n.1 == k)).take c.maxSize_
        ∧ (c.insertAux k v).2
            = (((k, v) :: c.keys_.eraseP (fun n => n.1 == k)).drop c.maxSize_).reverse) := by
  by_cases hk : k ∈ c.cache_
  · left
    rw [insertAux_hit v hk]
    exact ⟨rfl, rfl⟩
  · rw [eraseP_absent h hk]
    by_cases hs : c.size + 1 > c.getMaxAllowedSize
    · right
      rw [insertAux_prune v hk hs]
      refine ⟨hk, hs, ?_, ?_⟩
      · exact prune_keys (inv_push h v hk) _
      · exact prune_delelems (inv_push h v hk) _
    · left
      rw [insertAux_grow v hk hs]
      exact ⟨rfl, rfl⟩

theorem insert_keys_head {c : Cache K V} (h : c.Inv) (hm : 1 ≤ c.maxSize_) (k : K) (v : V) :
    ∃ rest, (c.insert k v).keys_ = (k, v) :: rest := by
  unfold insert
  rcases insertAux_keys h k v with ⟨h1, _⟩ | ⟨_, _, h1, _⟩
  · exact ⟨_, h1⟩
  · obtain ⟨m, hm2⟩ : ∃ m, c.maxSize_ = m + 1 := ⟨c.maxSize_ - 1, by omega⟩
    rw [h1, hm2, List.take_succ_cons]
    exact ⟨_, rfl⟩

theorem find_node {c : Cache K V} (h : c.Inv) {k : K} (hk : k ∈ c.cache_) :
    ∃ n, c.keys_.find? (fun n => n.1 == k) = some n ∧ n.1 = k := by
  have hmem : k ∈ c.keys_.map Prod.fst := (inv_mem h k).mp hk
  obtain ⟨a, ha, hak⟩ := List.mem_map.mp hmem
  cases hf : c.keys_.find? (fun n => n.1 == k) with
  | none =>
    rw [List.find?_eq_none] at hf
    exact absurd (by simpa using hak) (hf a ha)
  | some n =>
    exact ⟨n, rfl, by simpa using List.find?_some hf⟩

theorem tryGet_hit {c : Cache K V} (h : c.Inv) {k : K} (hk : k ∈ c.cache_) (v0 : V) :
    ∃ n, c.keys_.find? (fun n => n.1 == k) = some n ∧ n.1 = k ∧
      c.tryGet k v0
        = (true, n.2, { c with keys_ := n :: c.keys_.eraseP (fun n => n.1 == k) }) := by
  obtain ⟨n, hn, hnk⟩ := find_node h hk
  refine ⟨n, hn, hnk, ?_⟩
  simp [tryGet, hk, hn]

theorem tryGet_fst (c : Cache K V) (k : K) (v0 : V) :
    (c.tryGet k v0).1 = decide (k ∈ c.cache_) := by
  unfold tryGet
  by_cases hk : k ∈ c.cache_
  · rw [if_pos hk]
    split <;> simp [hk]
  · rw [if_neg hk]
    simp [hk]

theorem tryGet_val (c : Cache K V) (k : K) (v0 : V) :
    (c.tryGet k v0).2.1 = if k ∈ c.cache_ then (c.valueOf k).getD v0 else v0 := by
  unfold tryGet valueOf
  by_cases hk : k ∈ c.cache_
  · rw [if_pos hk, if_pos hk]
    split <;> rename_i hf <;> simp [hf]
  · rw [if_neg hk, if_neg hk]

theorem find_eraseP_other (k k2 : K) (hne : k2 ≠ k) (l : List (K × V)) :
    (l.eraseP (fun n => n.1 == k)).find? (fun n => n.1 == k2)
      = l.find? (fun n => n.1 == k2) := by
  induction l with
  | nil => rfl
  | cons a t ih =>
    by_cases h1 : a.1 = k
    · have e1 : (a.1 == k) = true := by simp [h1]
      have e2 : (a.1 == k2) = false := by
        simp only [beq_eq_false_iff_ne, ne_eq]
        intro h
        exact hne (h.symm.trans h1)
      simp only [List.eraseP_cons, List.find?_cons, e1, e2, cond_true]
    · have e1 : (a.1 == k) = false := by simpa using h1
      by_cases h2 : a.1 = k2
      · have e2 : (a.1 == k2) = true := by simp [h2]
        simp only [List.eraseP_cons, List.find?_cons, e1, e2, cond_false]
      · have e2 : (a.1 == k2) = false := by simpa using h2
        simp only [List.eraseP_cons, List.find?_cons, e1, e2, cond_false, ih]

theorem insert_holds {c : Cache K V} (h : c.Inv) (hm : 1 ≤ c.maxSize_) (k : K) (v : V) :
    (c.insert k v).Holds k v := by
  obtain ⟨rest, hr⟩ := insert_keys_head h hm k v
  have hk : k ∈ (c.insert k v).cache_ := by
    rw [inv_mem (insert_inv h k v), order, hr]
    simp
  refine ⟨by simpa [contains] using hk, ?_⟩
  rw [valueOf, hr]
  simp

theorem tryGet_cache (c : Cache K V) (k : K) (v0 : V) :
    (c.tryGet k v0).2.2.cache_ = c.cache_ ∧ (c.tryGet k v0).2.2.maxSize_ = c.maxSize_ ∧
      (c.tryGet k v0).2.2.elasticity_ = c.elasticity_ := by
  unfold tryGet
  split
  · split <;> simp
  · simp

theorem tryGet_inv {c : Cache K V} (h : c.Inv) (k : K) (v0 : V) : (c.tryGet k v0).2.2.Inv := by
  by_cases hk : k ∈ c.cache_
  · obtain ⟨n, _, hnk, heq⟩ := tryGet_hit h hk v0
    rw [heq]
    have hn : n = (k, n.2) := by rw [← hnk]
    rw [hn]
    exact inv_touch h n.2 hk
  · have : c.tryGet k v0 = (false, v0, c) := by simp [tryGet, hk]
    rw [this]
    exact h

theorem tryGet_holds {c : Cache K V} {k : K} {e : V} (h : c.Holds k e) (v0 : V) :
    (c.tryGet k v0).1 = true ∧ (c.tryGet k v0).2.1 = e := by
  have hk : k ∈ c.cache_ := by simpa [contains] using h.1
  refine ⟨by rw [tryGet_fst]; simpa using hk, ?_⟩
  rw [tryGet_val, if_pos hk, h.2]
  rfl

theorem tryGet_miss {c : Cache K V} {k : K} (h : c.contains k = false) (v0 : V) :
    c.tryGet k v0 = (false, v0, c) := by
  have hk : k ∉ c.cache_ := by simpa [contains] using h
  simp [tryGet, hk]

theorem remove_spec {c : Cache K V} (h : c.Inv) (k : K) :
    (c.remove k).2.Inv ∧ (c.remove k).2.contains k = false ∧
      (c.remove k).2.maxSize_ = c.maxSize_ := by
  have hnd : c.cache_.Nodup := h.1.nodup_iff.mpr h.2
  by_cases hk : k ∈ c.cache_
  · have hr : c.remove k
        = (true, { c with keys_ := c.keys_.eraseP (fun n => n.1 == k),
                          cache_ := c.cache_.erase k }) := by
      simp [remove, hk]
    rw [hr]
    refine ⟨⟨?_, ?_⟩, ?_, rfl⟩
    · simp only [map_fst_eraseP]
      exact h.1.erase k
    · simp only [map_fst_eraseP]
      exact h.2.sublist (List.erase_sublist _ _)
    · simp only [contains, decide_eq_false_iff_not]
      exact fun hm => (List.Nodup.mem_erase_iff hnd).mp hm |>.1 rfl
  · have hr : c.remove k = (false, c) := by simp [remove, hk]
    rw [hr]
    exact ⟨h, by simpa [contains] using hk, rfl⟩

/-- C1 (LRU size bound): for limits `m >= 1` and `e` (both `size_t` values) and every run
`ops` of `insert` calls on an empty cache, the size after each call (after every initial
segment of the run) is at most `m + e`; and an `insert` of a key that is not contained,
which takes the size above `m + e`, returns with the size exactly `m`. -/
theorem C1_lru_size_bound (m e : Nat) (hm : 1 ≤ m) (hm64 : m < SIZE_W) (he64 : e < SIZE_W)
    (ops : List (K × V)) :
    (∀ n, (insertAll (Cache.new m e) (ops.take n)).size ≤ m + e) ∧
    ∀ (k : K) (v : V), (insertAll (Cache.new m e) ops).contains k = false →
      (insertAll (Cache.new m e) ops).size + 1 > m + e →
      ((insertAll (Cache.new m e) ops).insert k v).size = m := by
  have reach : ∀ l : List (K × V),
      (insertAll (Cache.new m e) l).Inv ∧ (insertAll (Cache.new m e) l).maxSize_ = m ∧
        (insertAll (Cache.new m e) l).elasticity_ = e ∧
        (insertAll (Cache.new m e) l).size ≤ max m ((m + e) % SIZE_W) := fun l =>
    insertAll_reach m e l (Cache.new m e) (inv_new m e) rfl rfl (by simp [size, Cache.new])
  have hmod : (m + e) % SIZE_W ≤ m + e := Nat.mod_le _ _
  refine ⟨fun n => ?_, fun k v hk hs => ?_⟩
  · have := (reach (ops.take n)).2.2.2
    omega
  · obtain ⟨hinv, hmax, hel, hsz⟩ := reach ops
    have hk2 : k ∉ (insertAll (Cache.new m e) ops).cache_ := by
      simpa [contains] using hk
    have hA : (insertAll (Cache.new m e) ops).getMaxAllowedSize = (m + e) % SIZE_W := by
      simp [getMaxAllowedSize, hmax, hel]
    rw [insert_size hinv, if_neg hk2, hA, hmax]
    by_cases hw : m + e < SIZE_W
    · rw [Nat.mod_eq_of_lt hw] at hsz ⊢
      rw [if_pos hs]
      omega
    · exfalso
      have hw2 : (m + e) % SIZE_W = m + e - SIZE_W := by
        rw [Nat.mod_eq_sub_mod (by omega)]
        exact Nat.mod_eq_of_lt (by omega)
      omega

/-- C1 at limits 2 and 1 after three inserts of distinct keys (a fourth prunes). -/
theorem C1_lru_size_bound_witness :
    (1 ≤ 2 ∧ 2 < SIZE_W ∧ 1 < SIZE_W) ∧
    ((∀ n, (insertAll (Cache.new 2 1 : Cache Nat Nat)
        (List.take n [(1, 10), (2, 20), (3, 30)])).size ≤ 2 + 1) ∧
    ∀ (k : Nat) (v : Nat),
      (insertAll (Cache.new 2 1 : Cache Nat Nat) [(1, 10), (2, 20), (3, 30)]).contains k
        = false →
      (insertAll (Cache.new 2 1 : Cache Nat Nat) [(1, 10), (2, 20), (3, 30)]).size + 1
        > 2 + 1 →
      ((insertAll (Cache.new 2 1 : Cache Nat Nat) [(1, 10), (2, 20), (3, 30)]).insert
        k v).size = 2) :=
  ⟨⟨by decide, by decide, by decide⟩,
    C1_lru_size_bound 2 1 (by decide) (by decide) (by decide) [(1, 10), (2, 20), (3, 30)]⟩

/-- C2 (LRU recency and eviction order): in a cache with `maxSize_ >= 1`, after
`insert(k, v)` the key `k` is first in the recency order; the new order followed by the
evicted keys (latest eviction first, so read backwards) is `k` followed by the old order
without `k`, so the surviving keys keep their relative order and the evicted ones are
exactly the tail of the recency order; when something is evicted the survivors are the
first `maxSize_` keys of that order; and a successful `tryGet(k)` leaves `k` first followed
by the old order without `k`. -/
theorem C2_lru_recency (c : Cache K V) (h : c.Inv) (hm : 1 ≤ c.maxSize_) (k : K) (v v0 : V) :
    (c.insert k v).order.head? = some k ∧
    (c.insert k v).order ++ ((c.insertAux k v).2.map Prod.fst).reverse
      = k :: c.order.erase k ∧
    ((c.insertAux k v).2 ≠ [] →
      (c.insert k v).order = (k :: c.order.erase k).take c.maxSize_ ∧
      (c.insert k v).size = c.maxSize_) ∧
    ((c.tryGet k v0).1 = true → (c.tryGet k v0).2.2.order = k :: c.order.erase k) := by
  have hT : ((k, v) :: c.keys_.eraseP (fun n => n.1 == k)).map Prod.fst
      = k :: c.order.erase k := by
    simp only [List.map_cons, map_fst_eraseP, order]
  refine ⟨?_, ?_, ?_, ?_⟩
  · obtain ⟨rest, hr⟩ := insert_keys_head h hm k v
    simp [order, hr]
  · rcases insertAux_keys h k v with ⟨h1, h2⟩ | ⟨_, _, h1, h2⟩
    · simp only [insert, order, h1, h2, hT]
      simp
    · simp only [insert, order, h1, h2]
      rw [List.map_reverse, List.reverse_reverse, ← List.map_append, List.take_append_drop, hT]
      rfl
  · intro hne
    rcases insertAux_keys h k v with ⟨h1, h2⟩ | ⟨_, _, h1, h2⟩
    · exact absurd h2 hne
    · refine ⟨?_, ?_⟩
      · simp only [insert, order, h1]
        rw [List.map_take, hT]
        rfl
      · have hlen := inv_length (insert_inv h k v)
        have hd : ((k, v) :: c.keys_.eraseP (fun n => n.1 == k)).drop c.maxSize_ ≠ [] := by
          intro h0
          apply hne
          rw [h2, h0]
          rfl
        have hlt : c.maxSize_ < ((k, v) :: c.keys_.eraseP (fun n => n.1 == k)).length := by
          by_contra hge
          exact hd (List.drop_of_length_le (by omega))
        unfold size
        rw [hlen]
        simp only [insert, h1, List.length_take]
        omega
  · intro hg
    have hk : k ∈ c.cache_ := by
      rw [tryGet_fst] at hg
      simpa using hg
    obtain ⟨n, _, hnk, heq⟩ := tryGet_hit h hk v0
    rw [heq]
    simp only [order, List.map_cons, map_fst_eraseP, hnk]

/-- C2 on a cache holding keys 3, 2, 1 (most recent first) with limits 2 and 1. -/
theorem C2_lru_recency_witness :
    (Inv ({ maxSize_ := 2, elasticity_ := 1, cache_ := [1, 2, 3],
            keys_ := [(3, 30), (2, 20), (1, 10)] } : Cache Nat Nat) ∧ 1 ≤ 2) ∧
    (let c : Cache Nat Nat := { maxSize_ := 2, elasticity_ := 1, cache_ := [1, 2, 3],
                                keys_ := [(3, 30), (2, 20), (1, 10)] }
     (c.insert 4 40).order.head? = some 4 ∧
     (c.insert 4 40).order ++ ((c.insertAux 4 40).2.map Prod.fst).reverse
       = 4 :: c.order.erase 4 ∧
     ((c.insertAux 4 40).2 ≠ [] →
       (c.insert 4 40).order = (4 :: c.order.erase 4).take c.maxSize_ ∧
       (c.insert 4 40).size = c.maxSize_) ∧
     ((c.tryGet 4 0).1 = true → (c.tryGet 4 0).2.2.order = 4 :: c.order.erase 4)) :=
  ⟨⟨⟨by decide, by decide⟩, by decide⟩,
    C2_lru_recency { maxSize_ := 2, elasticity_ := 1, cache_ := [1, 2, 3],
                     keys_ := [(3, 30), (2, 20), (1, 10)] } ⟨by decide, by decide⟩ (by decide)
      4 40 0⟩

/-- C3 (insert/tryGet round trip): in a cache with `maxSize_ >= 1`, `tryGet(k)` right after
`insert(k, v)` returns true and yields `v`, whether or not `k` was contained; when `k` was
contained the insert keeps the size, the index (the set of keys) and, for every other key,
what `tryGet` returns and yields; and `tryGet` of a key that is not contained returns
false, leaves the out-parameter alone and the cache (contents and order) unchanged. -/
theorem C3_lru_round_trip (c : Cache K V) (h : c.Inv) (hm : 1 ≤ c.maxSize_) (k : K)
    (v v0 : V) :
    (((c.insert k v).tryGet k v0).1 = true ∧ ((c.insert k v).tryGet k v0).2.1 = v) ∧
    (c.contains k = true →
      (c.insert k v).size = c.size ∧ (c.insert k v).cache_ = c.cache_ ∧
      ∀ k2, k2 ≠ k →
        ((c.insert k v).tryGet k2 v0).1 = (c.tryGet k2 v0).1 ∧
        ((c.insert k v).tryGet k2 v0).2.1 = (c.tryGet k2 v0).2.1) ∧
    (c.contains k = false → c.tryGet k v0 = (false, v0, c)) := by
  refine ⟨?_, ?_, ?_⟩
  · obtain ⟨rest, hr⟩ := insert_keys_head h hm k v
    have hinv := insert_inv h k v
    have hk : k ∈ (c.insert k v).cache_ := by
      rw [inv_mem hinv, order, hr]
      simp
    refine ⟨?_, ?_⟩
    · rw [tryGet_fst]
      simpa using hk
    · rw [tryGet_val, if_pos hk, valueOf, hr]
      simp
  · intro hc
    have hk : k ∈ c.cache_ := by simpa [contains] using hc
    have hi : c.insert k v
        = { c with keys_ := (k, v) :: c.keys_.eraseP (fun n => n.1 == k) } := by
      unfold insert
      rw [insertAux_hit v hk]
    refine ⟨by rw [hi]; rfl, by rw [hi], ?_⟩
    intro k2 hne
    refine ⟨?_, ?_⟩
    · rw [tryGet_fst, tryGet_fst, hi]
    · rw [tryGet_val, tryGet_val, hi]
      have e : ((k, v).1 == k2) = false := by
        simp only [beq_eq_false_iff_ne, ne_eq]
        exact fun h0 => hne h0.symm
      simp only [valueOf, List.find?_cons, e, find_eraseP_other k k2 hne]
  · intro hc
    have hk : k ∉ c.cache_ := by simpa [contains] using hc
    simp [tryGet, hk]

/-- C3 on a cache holding keys 3, 2, 1 with limits 2 and 1, for the contained key 2. -/
theorem C3_lru_round_trip_witness :
    (Inv ({ maxSize_ := 2, elasticity_ := 1, cache_ := [1, 2, 3],
            keys_ := [(3, 30), (2, 20), (1, 10)] } : Cache Nat Nat) ∧ 1 ≤ 2) ∧
    (let c : Cache Nat Nat := { maxSize_ := 2, elasticity_ := 1, cache_ := [1, 2, 3],
                                keys_ := [(3, 30), (2, 20), (1, 10)] }
     (((c.insert 2 21).tryGet 2 0).1 = true ∧ ((c.insert 2 21).tryGet 2 0).2.1 = 21) ∧
     (c.contains 2 = true →
       (c.insert 2 21).size = c.size ∧ (c.insert 2 21).cache_ = c.cache_ ∧
       ∀ k2, k2 ≠ 2 →
         ((c.insert 2 21).tryGet k2 0).1 = (c.tryGet k2 0).1 ∧
         ((c.insert 2 21).tryGet k2 0).2.1 = (c.tryGet k2 0).2.1) ∧
     (c.contains 2 = false → c.tryGet 2 0 = (false, 0, c))) :=
  ⟨⟨⟨by decide, by decide⟩, by decide⟩,
    C3_lru_round_trip { maxSize_ := 2, elasticity_ := 1, cache_ := [1, 2, 3],
                        keys_ := [(3, 30), (2, 20), (1, 10)] } ⟨by decide, by decide⟩ (by decide)
      2 21 0⟩

end lru11.Cache

/-! ## Properties of `readDir` and `readBlock` -/

namespace httpfs

open lru11 lru11.Cache

theorem readDirFetch_calls (w : World) (s : HttpFSServer) (path : Bytes) (entry : DirEntry) :
    (readDirFetch w s path entry).calls = [HttpCall.get (s.url ++ urienc path) 0 0] := by
  unfold readDirFetch
  simp only []
  split
  · rfl
  · split
    · rfl
    · split <;> rfl

theorem readDirFetch_fail (w : World) (s : HttpFSServer) (path : Bytes) (entry : DirEntry)
    (h : (w.get (s.url ++ urienc path) 0 0).1 = false
      ∨ w.json_parse (w.get (s.url ++ urienc path) 0 0).2 = none) :
    (readDirFetch w s path entry).result = .ok false ∧
      (readDirFetch w s path entry).server = s := by
  unfold readDirFetch
  simp only []
  by_cases h1 : (w.get (s.url ++ urienc path) 0 0).1 = true
  · have h2 : w.json_parse (w.get (s.url ++ urienc path) 0 0).2 = none := by
      rcases h with h | h
      · rw [h1] at h; exact absurd h (by decide)
      · exact h
    simp [h1, h2]
  · simp [h1]

theorem readDirFetch_ok (w : World) (s : HttpFSServer) (path : Bytes) (entry : DirEntry)
    (js : Json) (d : DirEntry)
    (h1 : (w.get (s.url ++ urienc path) 0 0).1 = true)
    (h2 : w.json_parse (w.get (s.url ++ urienc path) 0 0).2 = some js)
    (h3 : parse_response w js = .ok d) :
    (readDirFetch w s path entry).result = .ok true ∧
      (readDirFetch w s path entry).entry = d ∧
      (readDirFetch w s path entry).server
        = { s with metacache := s.metacache.insert path d } := by
  unfold readDirFetch
  simp [h1, h2, h3]

theorem readDirFetch_threw (w : World) (s : HttpFSServer) (path : Bytes) (entry : DirEntry)
    (js : Json) (err : Abort)
    (h1 : (w.get (s.url ++ urienc path) 0 0).1 = true)
    (h2 : w.json_parse (w.get (s.url ++ urienc path) 0 0).2 = some js)
    (h3 : parse_response w js = .error err) :
    (readDirFetch w s path entry).result = .error err ∧
      (readDirFetch w s path entry).entry = entry ∧
      (readDirFetch w s path entry).server = s := by
  unfold readDirFetch
  simp [h1, h2, h3]

theorem parse_response_fetch_time (w : World) (js : Json) (d : DirEntry)
    (h : parse_response w js = .ok d) : d.fetch_time = w.tParse := by
  unfold parse_response at h
  split at h
  · exact absurd h (by simp)
  · simp only [Except.ok.injEq] at h
    rw [← h]

/-- C4 (valid hit): when the metadata cache holds `e` for `path` and
`e.fetch_time > now - TTL` (`now` being the clock read of that test), `readDir` returns true
with `e` in the out-parameter, makes no synchronous GET, and submits one asynchronous GET
of `url + urienc(path)` exactly when `e.fetch_time < now - TTL/2` (`now` being the clock
read of that test, `TTL/2` the unsigned division). This holds in every world, whatever
the transport answers: the completion of the submitted request is the separate step
`refreshDone`, which acts on the cache only, so the entry returned does not depend on it. -/
theorem C4_readDir_valid_hit (w : World) (s : HttpFSServer) (path : Bytes)
    (entry0 e : DirEntry) (hhold : s.metacache.Holds path e)
    (hvalid : e.fetch_time > w.tValid - (s.metacachettl : Int)) :
    (readDir w s path entry0).result = .ok true ∧
    (readDir w s path entry0).entry = e ∧
    (∀ u o z, HttpCall.get u o z ∉ (readDir w s path entry0).calls) ∧
    (HttpCall.doGET (s.url ++ urienc path) 0 0 ∈ (readDir w s path entry0).calls
      ↔ e.fetch_time < w.tPrefetch - ((s.metacachettl / 2 : Nat) : Int)) ∧
    (readDir w s path entry0).calls.length ≤ 1 := by
  obtain ⟨hg1, hg2⟩ := tryGet_holds hhold entry0
  unfold readDir
  simp only [hg1, hg2, if_true, hvalid]
  refine ⟨trivial, trivial, ?_, ?_, ?_⟩
  · intro u o z
    split <;> simp
  · by_cases hc : e.fetch_time < w.tPrefetch - ((s.metacachettl / 2 : Nat) : Int)
    · rw [if_pos hc]
      exact ⟨fun _ => hc, fun _ => List.mem_singleton.mpr rfl⟩
    · rw [if_neg hc]
      exact ⟨fun h => absurd h (List.not_mem_nil _), fun h => absurd h hc⟩
  · split <;> simp

/-- C4 at time 100 with TTL 60 and a snapshot fetched at time 50 (valid, and in the second
half of its window, so a refresh is submitted). -/
theorem C4_readDir_valid_hit_witness :
    ((serverWith 50).metacache.Holds (ascii "/") (snapshot 50) ∧
      (snapshot 50).fetch_time
        > (worldWith (false, []) none 100).tValid - ((serverWith 50).metacachettl : Int)) ∧
    ((readDir (worldWith (false, []) none 100) (serverWith 50) (ascii "/") (snapshot 0)).result
        = .ok true ∧
     (readDir (worldWith (false, []) none 100) (serverWith 50) (ascii "/") (snapshot 0)).entry
        = snapshot 50 ∧
     (∀ u o z, HttpCall.get u o z ∉
        (readDir (worldWith (false, []) none 100) (serverWith 50) (ascii "/") (snapshot 0)).calls) ∧
     (HttpCall.doGET ((serverWith 50).url ++ urienc (ascii "/")) 0 0 ∈
        (readDir (worldWith (false, []) none 100) (serverWith 50) (ascii "/") (snapshot 0)).calls
       ↔ (snapshot 50).fetch_time
           < (worldWith (false, []) none 100).tPrefetch
             - (((serverWith 50).metacachettl / 2 : Nat) : Int)) ∧
     (readDir (worldWith (false, []) none 100) (serverWith 50) (ascii "/")
        (snapshot 0)).calls.length ≤ 1) :=
  ⟨⟨⟨by decide, by decide⟩, by decide⟩,
    C4_readDir_valid_hit (worldWith (false, []) none 100) (serverWith 50) (ascii "/")
      (snapshot 0) (snapshot 50) ⟨by decide, by decide⟩ (by decide)⟩

theorem readDir_stale_eq (w : World) (s : HttpFSServer) (path : Bytes) (entry0 : DirEntry)
    (hinv : s.metacache.Inv) (hmax : 1 ≤ s.metacache.maxSize_)
    (hstale : s.metacache.contains path = false
      ∨ ∃ e, s.metacache.Holds path e ∧ e.fetch_time ≤ w.tValid - (s.metacachettl : Int)) :
    ∃ (s2 : HttpFSServer) (entry2 : DirEntry),
      readDir w s path entry0 = readDirFetch w s2 path entry2 ∧ s2.url = s.url ∧
      s2.metacache.Inv ∧ 1 ≤ s2.metacache.maxSize_ ∧ s2.metacache.contains path = false := by
  rcases hstale with hmiss | ⟨e, hhold, hold⟩
  · refine ⟨s, entry0, ?_, rfl, hinv, hmax, hmiss⟩
    unfold readDir
    simp only [tryGet_miss hmiss entry0]
    rfl
  · obtain ⟨hg1, hg2⟩ := tryGet_holds hhold entry0
    have hi := tryGet_inv hinv path entry0
    have hc := tryGet_cache s.metacache path entry0
    obtain ⟨r1, r2, r3⟩ := remove_spec hi path
    refine ⟨{ s with metacache := ((s.metacache.tryGet path entry0).2.2.remove path).2 }, e,
      ?_, rfl, r1, ?_, r2⟩
    · unfold readDir
      have hnv : ¬ e.fetch_time > w.tValid - (s.metacachettl : Int) := by omega
      simp only [hg1, hg2, if_true, hnv, if_false]
    · show 1 ≤ ((s.metacache.tryGet path entry0).2.2.remove path).2.maxSize_
      rw [r3, hc.2.1]
      exact hmax

/-- What `readDir` does on a miss or an expired entry: when the cache holds nothing for
`path`, or holds an entry `e` with `e.fetch_time <= now - TTL`, `readDir` makes exactly one
request, the synchronous GET of `url + urienc(path)`; if the transport fails or the text
parser discards the body it returns false and the cache then holds nothing for `path`; if
the body parses and `parse_response` yields a `DirEntry`, it returns true with that entry,
stamped with the time of the parse, and the cache then holds exactly that entry for `path`;
and if `parse_response` does not return, neither does `readDir`, and the cache then holds
nothing for `path`. -/
theorem readDir_stale_spec (w : World) (s : HttpFSServer) (path : Bytes) (entry0 : DirEntry)
    (hinv : s.metacache.Inv) (hmax : 1 ≤ s.metacache.maxSize_)
    (hstale : s.metacache.contains path = false
      ∨ ∃ e, s.metacache.Holds path e ∧ e.fetch_time ≤ w.tValid - (s.metacachettl : Int)) :
    (readDir w s path entry0).calls = [HttpCall.get (s.url ++ urienc path) 0 0] ∧
    (((w.get (s.url ++ urienc path) 0 0).1 = false
        ∨ w.json_parse (w.get (s.url ++ urienc path) 0 0).2 = none) →
      (readDir w s path entry0).result = .ok false ∧
      (readDir w s path entry0).server.metacache.contains path = false) ∧
    (∀ js d, (w.get (s.url ++ urienc path) 0 0).1 = true →
      w.json_parse (w.get (s.url ++ urienc path) 0 0).2 = some js →
      parse_response w js = .ok d →
      (readDir w s path entry0).result = .ok true ∧
      (readDir w s path entry0).entry = d ∧
      d.fetch_time = w.tParse ∧
      (readDir w s path entry0).server.metacache.Holds path d) ∧
    (∀ js a, (w.get (s.url ++ urienc path) 0 0).1 = true →
      w.json_parse (w.get (s.url ++ urienc path) 0 0).2 = some js →
      parse_response w js = .error a →
      (readDir w s path entry0).result = .error a ∧
      (readDir w s path entry0).server.metacache.contains path = false) := by
  obtain ⟨s2, entry2, heq, hurl, hi2, hm2, hc2⟩ :=
    readDir_stale_eq w s path entry0 hinv hmax hstale
  rw [heq, ← hurl]
  refine ⟨readDirFetch_calls w s2 path entry2, ?_, ?_, ?_⟩
  · intro hf
    obtain ⟨f1, f2⟩ := readDirFetch_fail w s2 path entry2 hf
    rw [f1, f2]
    exact ⟨rfl, hc2⟩
  · intro js d h1 h2 h3
    obtain ⟨f1, f2, f3⟩ := readDirFetch_ok w s2 path entry2 js d h1 h2 h3
    rw [f1, f2, f3]
    exact ⟨rfl, rfl, parse_response_fetch_time w js d h3, insert_holds hi2 hm2 path d⟩
  · intro js a h1 h2 h3
    obtain ⟨f1, _, f3⟩ := readDirFetch_threw w s2 path entry2 js a h1 h2 h3
    rw [f1, f3]
    exact ⟨rfl, hc2⟩

/-- C5 at its failing input: the cache holds for `/` a snapshot fetched at time 50, the
TTL is 60 and the time is 200, so the entry is expired; the server answers the GET with
transport success and the body `5`, which is valid JSON. `readDir` makes its one
synchronous GET and removes the expired entry, but it returns neither false nor a freshly
parsed `DirEntry`: `parse_response` raises `type_error` 305 at `jresp[0]` and the exception
leaves `readDir`. The same happens when the cache holds nothing for `/`. -/
theorem C5_readDir_stale_divergence :
    (serverWith 50).metacache.Holds (ascii "/") (snapshot 50) ∧
    (snapshot 50).fetch_time
      ≤ (worldWith (true, ascii "5") (some (Json.number_unsigned 5)) 200).tValid
        - ((serverWith 50).metacachettl : Int) ∧
    ((worldWith (true, ascii "5") (some (Json.number_unsigned 5)) 200).get
        ((serverWith 50).url ++ urienc (ascii "/")) 0 0).1 = true ∧
    (worldWith (true, ascii "5") (some (Json.number_unsigned 5)) 200).json_parse
        ((worldWith (true, ascii "5") (some (Json.number_unsigned 5)) 200).get
          ((serverWith 50).url ++ urienc (ascii "/")) 0 0).2
      = some (Json.number_unsigned 5) ∧
    (readDir (worldWith (true, ascii "5") (some (Json.number_unsigned 5)) 200) (serverWith 50)
        (ascii "/") (snapshot 0)).result = .error (.threw (.type_error 305)) ∧
    (readDir (worldWith (true, ascii "5") (some (Json.number_unsigned 5)) 200) (serverWith 50)
        (ascii "/") (snapshot 0)).calls
      = [HttpCall.get ((serverWith 50).url ++ urienc (ascii "/")) 0 0] ∧
    (readDir (worldWith (true, ascii "5") (some (Json.number_unsigned 5)) 200) (serverWith 50)
        (ascii "/") (snapshot 0)).server.metacache.contains (ascii "/") = false ∧
    server0.metacache.contains (ascii "/") = false ∧
    (readDir (worldWith (true, ascii "5") (some (Json.number_unsigned 5)) 200) server0
        (ascii "/") (snapshot 0)).result = .error (.threw (.type_error 305)) :=
  ⟨⟨by decide, by decide⟩, by decide, rfl, rfl, rfl, by decide, by decide, by decide, rfl⟩

end httpfs

/-! ## Properties of the bridge -/

namespace fuseimpl

open httpfs lru11

theorem find_last_of_none (c : Nat) (l : Bytes) : find_last_of l c = none ↔ c ∉ l := by
  induction l with
  | nil => simp [find_last_of]
  | cons b bs ih =>
    unfold find_last_of
    cases hf : find_last_of bs c with
    | some q =>
      have : c ∈ bs := by
        by_contra hn
        rw [ih.mpr hn] at hf
        exact absurd hf (by simp)
      simp [this]
    | none =>
      have hn : c ∉ bs := ih.mp hf
      by_cases hb : b = c
      · simp [hb]
      · simp [hb, hn]
        exact fun h => hb h.symm

theorem find_last_of_some (c : Nat) (l : Bytes) :
    ∀ p, find_last_of l c = some p →
      (l.take (p + 1)).getLast? = some c ∧ c ∉ l.drop (p + 1) := by
  induction l with
  | nil => intro p h; simp [find_last_of] at h
  | cons b bs ih =>
    intro p h
    unfold find_last_of at h
    cases hf : find_last_of bs c with
    | some q =>
      rw [hf] at h
      simp only [Option.some.injEq] at h
      subst h
      obtain ⟨h1, h2⟩ := ih q hf
      refine ⟨?_, by simpa using h2⟩
      rw [List.take_succ_cons]
      cases ht : bs.take (q + 1) with
      | nil => rw [ht] at h1; simp at h1
      | cons x xs =>
        rw [ht] at h1
        rw [List.getLast?_cons_cons]
        exact h1
    | none =>
      rw [hf] at h
      by_cases hb : b = c
      · simp only [hb, if_true, Option.some.injEq] at h
        subst h
        refine ⟨by simp [hb], ?_⟩
        simpa using (find_last_of_none c bs).mp hf
      · simp [hb] at h

theorem lookup_none_iff {β : Type} (k : Bytes) (m : List (Bytes × β)) :
    m.lookup k = none ↔ k ∉ m.map Prod.fst := by
  induction m with
  | nil => simp
  | cons a t ih =>
    obtain ⟨k0, v0⟩ := a
    by_cases h : k = k0
    · subst h
      simp [List.lookup]
    · have hb : (k == k0) = false := by simpa using h
      simp [List.lookup, hb, ih, h]

/-- What `httpfs_getattr` yields when `readDir` returns: `getattr("/")` returns 0 with the
synthesized directory `stat` (zero times, link count 1) and calls neither `readDir` nor the
HTTP client; for any other path that contains `/`, the pair `(parent, basename)` of
`pathdecompose` satisfies `parent ++ basename = path`, `parent` ends in `/` and `basename`
has no `/` (so `parent` is the part of the path up to and including its last `/`),
`readDir` is called once, on `parent`, and the result is `- EIO` when `readDir` returns
false, `-ENOENT` when it returns true and `basename` is not a key of the entries, and 0
with `*st` the `stat` stored under `basename` when it returns true and `basename` is a
key. -/
theorem getattr_mapping_spec (w : World) (s : HttpFSServer) (st : Stat) (entry0 : DirEntry)
    (path : Bytes) (hroot : path ≠ ascii "/") (hslash : 47 ∈ path) :
    ((httpfs_getattr w s (ascii "/") st entry0).ret = .ok 0 ∧
      (httpfs_getattr w s (ascii "/") st entry0).st = rootStat w ∧
      (httpfs_getattr w s (ascii "/") st entry0).readDirs = [] ∧
      (httpfs_getattr w s (ascii "/") st entry0).calls = [] ∧
      (rootStat w).st_mode &&& S_IFMT = S_IFDIR ∧
      (rootStat w).st_atime = 0 ∧ (rootStat w).st_mtime = 0 ∧ (rootStat w).st_ctime = 0 ∧
      (rootStat w).st_nlink = 1) ∧
    ((pathdecompose path).1 ++ (pathdecompose path).2 = path ∧
      (pathdecompose path).1.getLast? = some 47 ∧
      47 ∉ (pathdecompose path).2) ∧
    (httpfs_getattr w s path st entry0).readDirs = [(pathdecompose path).1] ∧
    ((readDir w s (pathdecompose path).1 entry0).result = .ok false →
      (httpfs_getattr w s path st entry0).ret = .ok (- EIO)) ∧
    ((readDir w s (pathdecompose path).1 entry0).result = .ok true →
      (pathdecompose path).2 ∉ (readDir w s (pathdecompose path).1 entry0).entry.entries.map
        Prod.fst →
      (httpfs_getattr w s path st entry0).ret = .ok (-ENOENT)) ∧
    ((readDir w s (pathdecompose path).1 entry0).result = .ok true →
      (pathdecompose path).2 ∈ (readDir w s (pathdecompose path).1 entry0).entry.entries.map
        Prod.fst →
      ∃ m, (readDir w s (pathdecompose path).1 entry0).entry.entries.lookup
          (pathdecompose path).2 = some m ∧
        (httpfs_getattr w s path st entry0).ret = .ok 0 ∧
        (httpfs_getattr w s path st entry0).st = m) := by
  refine ⟨?_, ?_, ?_, ?_, ?_, ?_⟩
  · refine ⟨?_, ?_, ?_, ?_, (by decide : (S_IRUSR ||| S_IRGRP ||| S_IFDIR) &&& S_IFMT = S_IFDIR), rfl, rfl, rfl, rfl⟩ <;> simp [httpfs_getattr]
  · obtain ⟨p, hp⟩ : ∃ p, find_last_of path 47 = some p := by
      cases hf : find_last_of path 47 with
      | none => exact absurd hslash ((find_last_of_none 47 path).mp hf)
      | some p => exact ⟨p, rfl⟩
    obtain ⟨h1, h2⟩ := find_last_of_some 47 path p hp
    simp only [pathdecompose, hp]
    exact ⟨List.take_append_drop _ _, h1, h2⟩
  · unfold httpfs_getattr
    rw [if_neg hroot]
    simp only []
    split
    · rfl
    · rfl
    · split <;> rfl
  · intro hr
    unfold httpfs_getattr
    rw [if_neg hroot]
    simp only [hr]
  · intro hr hk
    have hl := (lookup_none_iff _ _).mpr hk
    unfold httpfs_getattr
    rw [if_neg hroot]
    simp only [hr, hl]
  · intro hr hk
    cases hl : (readDir w s (pathdecompose path).1 entry0).entry.entries.lookup
        (pathdecompose path).2 with
    | none => exact absurd ((lookup_none_iff _ _).mp hl) (not_not.mpr hk)
    | some m =>
      refine ⟨m, rfl, ?_, ?_⟩
      · unfold httpfs_getattr
        rw [if_neg hroot]
        simp only [hr, hl]
      · unfold httpfs_getattr
        rw [if_neg hroot]
        simp only [hr, hl]

/-- The mapping of `getattr_mapping_spec` for `/b.txt` on a server whose cache holds a
fresh snapshot of `/`. -/
theorem getattr_mapping_spec_example :
    (ascii "/b.txt" ≠ ascii "/" ∧ 47 ∈ ascii "/b.txt") ∧
    (((httpfs_getattr (worldWith (false, []) none 60) (serverWith 50) (ascii "/")
          (rootStat (worldWith (false, []) none 60)) (snapshot 0)).ret = .ok 0 ∧
      (httpfs_getattr (worldWith (false, []) none 60) (serverWith 50) (ascii "/")
          (rootStat (worldWith (false, []) none 60)) (snapshot 0)).st
        = rootStat (worldWith (false, []) none 60) ∧
      (httpfs_getattr (worldWith (false, []) none 60) (serverWith 50) (ascii "/")
          (rootStat (worldWith (false, []) none 60)) (snapshot 0)).readDirs = [] ∧
      (httpfs_getattr (worldWith (false, []) none 60) (serverWith 50) (ascii "/")
          (rootStat (worldWith (false, []) none 60)) (snapshot 0)).calls = [] ∧
      (rootStat (worldWith (false, []) none 60)).st_mode &&& S_IFMT = S_IFDIR ∧
      (rootStat (worldWith (false, []) none 60)).st_atime = 0 ∧
      (rootStat (worldWith (false, []) none 60)).st_mtime = 0 ∧
      (rootStat (worldWith (false, []) none 60)).st_ctime = 0 ∧
      (rootStat (worldWith (false, []) none 60)).st_nlink = 1) ∧
    ((pathdecompose (ascii "/b.txt")).1 ++ (pathdecompose (ascii "/b.txt")).2 = ascii "/b.txt" ∧
      (pathdecompose (ascii "/b.txt")).1.getLast? = some 47 ∧
      47 ∉ (pathdecompose (ascii "/b.txt")).2) ∧
    (httpfs_getattr (worldWith (false, []) none 60) (serverWith 50) (ascii "/b.txt")
        (rootStat (worldWith (false, []) none 60)) (snapshot 0)).readDirs
      = [(pathdecompose (ascii "/b.txt")).1] ∧
    ((readDir (worldWith (false, []) none 60) (serverWith 50) (pathdecompose (ascii "/b.txt")).1
        (snapshot 0)).result = .ok false →
      (httpfs_getattr (worldWith (false, []) none 60) (serverWith 50) (ascii "/b.txt")
        (rootStat (worldWith (false, []) none 60)) (snapshot 0)).ret = .ok (- EIO)) ∧
    ((readDir (worldWith (false, []) none 60) (serverWith 50) (pathdecompose (ascii "/b.txt")).1
        (snapshot 0)).result = .ok true →
      (pathdecompose (ascii "/b.txt")).2 ∉
        (readDir (worldWith (false, []) none 60) (serverWith 50)
          (pathdecompose (ascii "/b.txt")).1 (snapshot 0)).entry.entries.map Prod.fst →
      (httpfs_getattr (worldWith (false, []) none 60) (serverWith 50) (ascii "/b.txt")
        (rootStat (worldWith (false, []) none 60)) (snapshot 0)).ret = .ok (-ENOENT)) ∧
    ((readDir (worldWith (false, []) none 60) (serverWith 50) (pathdecompose (ascii "/b.txt")).1
        (snapshot 0)).result = .ok true →
      (pathdecompose (ascii "/b.txt")).2 ∈
        (readDir (worldWith (false, []) none 60) (serverWith 50)
          (pathdecompose (ascii "/b.txt")).1 (snapshot 0)).entry.entries.map Prod.fst →
      ∃ m, (readDir (worldWith (false, []) none 60) (serverWith 50)
          (pathdecompose (ascii "/b.txt")).1 (snapshot 0)).entry.entries.lookup
          (pathdecompose (ascii "/b.txt")).2 = some m ∧
        (httpfs_getattr (worldWith (false, []) none 60) (serverWith 50) (ascii "/b.txt")
          (rootStat (worldWith (false, []) none 60)) (snapshot 0)).ret = .ok 0 ∧
        (httpfs_getattr (worldWith (false, []) none 60) (serverWith 50) (ascii "/b.txt")
          (rootStat (worldWith (false, []) none 60)) (snapshot 0)).st = m)) :=
  ⟨⟨by decide, by decide⟩,
    getattr_mapping_spec (worldWith (false, []) none 60) (serverWith 50)
      (rootStat (worldWith (false, []) none 60)) (snapshot 0) (ascii "/b.txt")
      (by decide) (by decide)⟩

/-- When `readDir` does not return, neither does `httpfs_getattr`: nothing catches the
exception. -/
theorem getattr_abort (w : World) (s : HttpFSServer) (st : Stat) (entry0 : DirEntry)
    (path : Bytes) (hroot : path ≠ ascii "/") (a : Abort)
    (hr : (readDir w s (pathdecompose path).1 entry0).result = .error a) :
    (httpfs_getattr w s path st entry0).ret = .error a := by
  unfold httpfs_getattr
  rw [if_neg hroot]
  simp only [hr]

/-- C7 at its failing input: `getattr("/x")` on a server that has nothing cached for `/`,
when the server answers the GET of `/` with transport success and the body `{"error":1}`,
which is valid JSON. The path is not `/` and contains `/`, `pathdecompose` gives
`("/", "x")`, and `readDir("/")` is called; `parse_response` raises `type_error` 305 at
`jresp[0]`, the exception leaves `readDir` and then `httpfs_getattr`, which returns none of
`- EIO`, `-ENOENT` and 0. -/
theorem C7_getattr_divergence :
    ascii "/x" ≠ ascii "/" ∧ 47 ∈ ascii "/x" ∧
    pathdecompose (ascii "/x") = (ascii "/", ascii "x") ∧
    server0.metacache.contains (ascii "/") = false ∧
    (httpfs_getattr (worldWith (true, ascii "\x7b\"error\":1\x7d")
        (some (.object [(ascii "error", .number_unsigned 1)])) 200) server0 (ascii "/x")
        (rootStat (worldWith (true, []) none 200)) (snapshot 0)).readDirs = [ascii "/"] ∧
    (httpfs_getattr (worldWith (true, ascii "\x7b\"error\":1\x7d")
        (some (.object [(ascii "error", .number_unsigned 1)])) 200) server0 (ascii "/x")
        (rootStat (worldWith (true, []) none 200)) (snapshot 0)).ret
      = .error (.threw (.type_error 305)) ∧
    (httpfs_getattr (worldWith (true, ascii "\x7b\"error\":1\x7d")
        (some (.object [(ascii "error", .number_unsigned 1)])) 200) server0 (ascii "/x")
        (rootStat (worldWith (true, []) none 200)) (snapshot 0)).ret ≠ .ok (- EIO) ∧
    (httpfs_getattr (worldWith (true, ascii "\x7b\"error\":1\x7d")
        (some (.object [(ascii "error", .number_unsigned 1)])) 200) server0 (ascii "/x")
        (rootStat (worldWith (true, []) none 200)) (snapshot 0)).ret ≠ .ok (-ENOENT) ∧
    (httpfs_getattr (worldWith (true, ascii "\x7b\"error\":1\x7d")
        (some (.object [(ascii "error", .number_unsigned 1)])) 200) server0 (ascii "/x")
        (rootStat (worldWith (true, []) none 200)) (snapshot 0)).ret ≠ .ok 0 := by
  have hret : (httpfs_getattr (worldWith (true, ascii "\x7b\"error\":1\x7d")
      (some (.object [(ascii "error", .number_unsigned 1)])) 200) server0 (ascii "/x")
      (rootStat (worldWith (true, []) none 200)) (snapshot 0)).ret
      = .error (.threw (.type_error 305)) := rfl
  refine ⟨by decide, by decide, by decide, by decide, rfl, hret, ?_, ?_, ?_⟩
  · rw [hret]
    intro h
    cases h
  · rw [hret]
    intro h
    cases h
  · rw [hret]
    intro h
    cases h

end fuseimpl

/-! ## Properties of `urienc` and `parse_response` -/

namespace httpfs

open lru11 lru11.Cache

theorem isAlnum_eq (b : Nat) (hb : b < 256) : isAlnum b = specIsAlnum b := by
  have hm : b % 256 = b := Nat.mod_eq_of_lt hb
  rw [Bool.eq_iff_iff]
  simp only [isAlnum, specIsAlnum, charVal, hm, Bool.or_eq_true, Bool.and_eq_true,
    decide_eq_true_eq]
  split <;> omega

theorem hcharset_eq (d : Nat) (hd : d < 16) : hcharset.getD d 0 = specHexDigit d := by
  interval_cases d <;> decide

theorem uriencStep_eq (ret : Bytes) (b : Nat) (hb : b < 256) :
    uriencStep ret b = ret ++ specEncByte b := by
  have hm : b % 256 = b := Nat.mod_eq_of_lt hb
  unfold uriencStep specEncByte
  rw [isAlnum_eq b hb, hm, hcharset_eq (b / 16) (by omega), hcharset_eq (b % 16) (by omega)]
  split <;> rfl

theorem urienc_foldl (s : Bytes) (hb : ∀ b ∈ s, b < 256) (acc : Bytes) :
    s.foldl uriencStep acc = acc ++ (s.map specEncByte).flatten := by
  induction s generalizing acc with
  | nil => simp
  | cons b t ih =>
    have h1 : b < 256 := hb b (List.mem_cons_self _ _)
    have h2 : ∀ x ∈ t, x < 256 := fun x hx => hb x (List.mem_cons_of_mem _ hx)
    simp only [List.foldl_cons, List.map_cons, List.flatten_cons]
    rw [uriencStep_eq acc b h1, ih h2, List.append_assoc]

theorem specHexDigit_alnum (d : Nat) (hd : d < 16) : specIsAlnum (specHexDigit d) = true := by
  interval_cases d <;> decide

theorem specEncByte_length (b : Nat) :
    (specEncByte b).length = 1 + 2 * (if specIsAlnum b then 0 else 1) := by
  unfold specEncByte
  split <;> simp

/-- C8 (percent-encoding): for a string of bytes, `urienc` is the concatenation, in order,
of the encoding of each byte, an ASCII letter or digit standing for itself and any other
byte for `%` and its two lowercase hexadecimal digits, high nibble first; the length of the
result is the length of the input plus twice the number of bytes that are not ASCII
alphanumerics; and every byte of the result is an ASCII alphanumeric or `%`. -/
theorem C8_urienc (s : Bytes) (hb : ∀ b ∈ s, b < 256) :
    urienc s = (s.map specEncByte).flatten ∧
    (urienc s).length = s.length + 2 * (s.filter (fun b => !specIsAlnum b)).length ∧
    ∀ c ∈ urienc s, specIsAlnum c = true ∨ c = 37 := by
  have h0 : urienc s = (s.map specEncByte).flatten := by
    unfold urienc
    rw [urienc_foldl s hb []]
    rfl
  refine ⟨h0, ?_, ?_⟩
  · rw [h0]
    clear h0 hb
    induction s with
    | nil => rfl
    | cons b t ih =>
      simp only [List.map_cons, List.flatten_cons, List.length_append, ih, specEncByte_length,
        List.length_cons, List.filter_cons]
      by_cases ha : specIsAlnum b = true
      · simp [ha]
        omega
      · simp [ha]
        omega
  · rw [h0]
    intro c hc
    simp only [List.mem_flatten, List.mem_map] at hc
    obtain ⟨l, ⟨b, hbs, rfl⟩, hcl⟩ := hc
    have hlt := hb b hbs
    unfold specEncByte at hcl
    by_cases ha : specIsAlnum b = true
    · rw [if_pos ha] at hcl
      simp only [List.mem_singleton] at hcl
      left
      rw [hcl]
      exact ha
    · rw [if_neg ha] at hcl
      simp only [List.mem_cons, List.mem_singleton, List.not_mem_nil, or_false] at hcl
      rcases hcl with h | h | h
      · right; exact h
      · left; rw [h]; exact specHexDigit_alnum _ (by omega)
      · left; rw [h]; exact specHexDigit_alnum _ (by omega)

/-- C8 for the bytes of `/a` followed by the byte 0xC8. -/
theorem C8_urienc_witness :
    (∀ b ∈ [47, 97, 200], b < 256) ∧
    (urienc [47, 97, 200] = (List.map specEncByte [47, 97, 200]).flatten ∧
     (urienc [47, 97, 200]).length
       = [47, 97, 200].length + 2 * (List.filter (fun b => !specIsAlnum b) [47, 97, 200]).length ∧
     ∀ c ∈ urienc [47, 97, 200], specIsAlnum c = true ∨ c = 37) :=
  ⟨by decide, C8_urienc [47, 97, 200] (by decide)⟩

theorem atKey_of_field (el : Json) (key : Bytes) (j : Json) (h : specField el key = some j) :
    el.atKey key = .ok j := by
  cases el <;> simp [specField] at h
  simp [Json.atKey, h]

theorem specString_field (el : Json) (key x : Bytes) (h : specString el key = some x) :
    specField el key = some (.string x) := by
  unfold specString at h
  split at h
  · simp only [Option.some.injEq] at h
    subst h
    assumption
  · exact absurd h (by simp)

theorem wellFormed_fields (el : Json) (h : wellFormedElem el = true) :
    ∃ n t m, elemName el = some n ∧ elemType el = some t ∧ elemMtime el = some m ∧
      (elemIsDir el = true ∨ ∃ z, elemSize el = some z ∧ z < 2 ^ 64) := by
  unfold wellFormedElem at h
  simp only [Bool.and_eq_true, Bool.or_eq_true, Option.isSome_iff_exists] at h
  obtain ⟨⟨⟨⟨n, hn⟩, ⟨t, ht⟩⟩, ⟨m, hm⟩⟩, hs⟩ := h
  refine ⟨n, t, m, hn, ht, hm, ?_⟩
  rcases hs with hs | hs
  · exact Or.inl hs
  · right
    cases hz : elemSize el with
    | none => rw [hz] at hs; exact absurd hs (by simp)
    | some z =>
      rw [hz] at hs
      exact ⟨z, rfl, by simpa using hs⟩

theorem elemSize_field (el : Json) (z : Nat) (h : elemSize el = some z) :
    specField el (ascii "size") = some (.number_unsigned z) := by
  unfold elemSize at h
  split at h
  · simp only [Option.some.injEq] at h
    subst h
    assumption
  · exact absurd h (by simp)

theorem parseElem_wf (w : World) (arr : List Json) (entries : List (Bytes × Stat)) (i : Nat)
    (h : wellFormedElem (arr.getD i .null) = true) :
    parseElem w (.array arr) entries i
      = .ok (mapAssign entries (specEntry w (arr.getD i .null)).1
          (specEntry w (arr.getD i .null)).2) := by
  have hidx : (Json.array arr).atIdx i = .ok (arr.getD i .null) := rfl
  unfold parseElem
  simp only [hidx, bind, Except.bind]
  generalize arr.getD i .null = el at h ⊢
  obtain ⟨n, t, m, hn, ht, hm, hs⟩ := wellFormed_fields el h
  have kn := atKey_of_field el _ _ (specString_field el _ _ hn)
  have kt := atKey_of_field el _ _ (specString_field el _ _ ht)
  have km := atKey_of_field el _ _ (specString_field el _ _ hm)
  have hdir : elemIsDir el = decide (t = ascii "directory") := by
    simp [elemIsDir, ht]
  simp only [kn, kt, km, Json.getString, Json.eqString, ← hdir]
  by_cases hd : elemIsDir el = true
  · simp only [hd, Bool.not_true, Bool.false_eq_true, if_false, if_true, pure, Except.pure,
      specEntry, hn, hm, Option.getD_some]
  · have hd2 : elemIsDir el = false := by simpa using hd
    rcases hs with hs | ⟨z, hz, hlt⟩
    · exact absurd hs hd
    · have ks := atKey_of_field el _ _ (elemSize_field el z hz)
      simp only [hd2, Bool.not_false, if_true, ks, Json.getU64, pure, Except.pure,
        specEntry, hn, hm, hz, Option.getD_some, Bool.false_eq_true, if_false,
        Nat.mod_eq_of_lt hlt]

theorem range_getD (arr : List Json) :
    (List.range arr.length).map (fun i => arr.getD i .null) = arr := by
  apply List.ext_getElem
  · simp
  · intro n h1 h2
    simp only [List.getElem_map, List.getElem_range]
    exact List.getD_eq_getElem _ _ h2

theorem foldlM_wf (w : World) (arr : List Json)
    (hwf : ∀ el ∈ arr, wellFormedElem el = true) :
    ∀ (idx : List Nat) (acc : List (Bytes × Stat)), (∀ i ∈ idx, i < arr.length) →
      idx.foldlM (parseElem w (.array arr)) acc
        = .ok ((idx.map (fun i => arr.getD i .null)).foldl
            (fun m el => mapAssign m (specEntry w el).1 (specEntry w el).2) acc) := by
  intro idx
  induction idx with
  | nil => intro acc _; rfl
  | cons i t ih =>
    intro acc hlt
    have hi : i < arr.length := hlt i (List.mem_cons_self _ _)
    have hel : wellFormedElem (arr.getD i .null) = true := by
      apply hwf
      rw [List.getD_eq_getElem _ _ hi]
      exact List.getElem_mem _
    rw [List.foldlM_cons, parseElem_wf w arr acc i hel]
    simp only [bind, Except.bind, List.map_cons, List.foldl_cons]
    exact ih _ (fun j hj => hlt j (List.mem_cons_of_mem _ hj))

/-- C10 at its failing inputs: on a cache miss, a body that parses to the JSON object
`{"error": 1}` makes `parse_response` raise `type_error` 305, which leaves `readDir`
(no false is returned; nothing is inserted); and a body that parses to `null` makes
`readDir` return true with an empty `DirEntry`, which is inserted into the cache. -/
theorem C10_wrong_shape_divergence :
    server0.metacache.contains (ascii "/") = false ∧
    (readDir (worldWith (true, ascii "\x7b\"error\":1\x7d")
        (some (.object [(ascii "error", .number_unsigned 1)])) 200) server0 (ascii "/")
        (snapshot 0)).result = .error (.threw (.type_error 305)) ∧
    (readDir (worldWith (true, ascii "\x7b\"error\":1\x7d")
        (some (.object [(ascii "error", .number_unsigned 1)])) 200) server0 (ascii "/")
        (snapshot 0)).server.metacache.contains (ascii "/") = false ∧
    (readDir (worldWith (true, ascii "null") (some .null) 200) server0 (ascii "/")
        (snapshot 0)).result = .ok true ∧
    (readDir (worldWith (true, ascii "null") (some .null) 200) server0 (ascii "/")
        (snapshot 0)).entry = { entries := [], fetch_time := 200 } ∧
    (readDir (worldWith (true, ascii "null") (some .null) 200) server0 (ascii "/")
        (snapshot 0)).server.metacache.contains (ascii "/") = true :=
  ⟨by decide, rfl, by decide, rfl, by decide, by decide⟩

end httpfs

/-! ## Properties of the HTTP client -/

namespace httpclient

theorem workMsg_doGET (s : HttpClient) (msg : CURLMsg) (req : Nat) (wrcb donecb : Bool) :
    workMsg (doGET s req wrcb donecb) msg = doGET (workMsg s msg) req wrcb donecb := by
  unfold workMsg doGET doQuery
  by_cases h : msg.msg = CURLMSG_DONE
  · simp only [h, if_true]
    cases s.request_set.lookup msg.easy_handle <;> rfl
  · simp only [h, if_false]

theorem assign_ids_le (m : List (Nat × t_query)) (k : Nat) (q : t_query) :
    (ids (assign m k q) : Multiset Nat) ≤ (ids m : Multiset Nat) + {q.id} := by
  induction m with
  | nil => simp [assign, ids]
  | cons a t ih =>
    obtain ⟨k0, v0⟩ := a
    unfold assign
    by_cases h : k0 = k
    · simp only [h, if_true, ids, List.map_cons]
      rw [← Multiset.cons_coe, ← Multiset.cons_coe, Multiset.cons_add]
      rw [← Multiset.singleton_add, ← Multiset.singleton_add, ← add_assoc,
        add_comm ({v0.id} : Multiset Nat) _, add_comm _ ({q.id} : Multiset Nat), ← add_assoc]
      exact Multiset.le_add_right _ _
    · simp only [h, if_false, ids, List.map_cons]
      rw [← Multiset.cons_coe, ← Multiset.cons_coe, Multiset.cons_add]
      exact Multiset.cons_le_cons _ ih

theorem drain_ids_le (P : List (Nat × t_query)) : ∀ R : List (Nat × t_query),
    (ids (P.foldl (fun rs req => assign rs req.1 req.2) R) : Multiset Nat)
      ≤ (ids P : Multiset Nat) + (ids R : Multiset Nat) := by
  induction P with
  | nil => intro R; simp [ids]
  | cons a t ih =>
    intro R
    simp only [List.foldl_cons]
    refine (ih _).trans ?_
    have h := assign_ids_le R a.1 a.2
    have h2 : (ids (a :: t) : Multiset Nat) = {a.2.id} + (ids t : Multiset Nat) := by
      simp [ids]
    rw [h2]
    calc (ids t : Multiset Nat) + (ids (assign R a.1 a.2) : Multiset Nat)
        ≤ (ids t : Multiset Nat) + ((ids R : Multiset Nat) + {a.2.id}) :=
          add_le_add_left h _
      _ = {a.2.id} + (ids t : Multiset Nat) + (ids R : Multiset Nat) := by
          rw [add_comm ({a.2.id} : Multiset Nat) _, add_assoc, add_comm ({a.2.id} : Multiset Nat) _]

theorem filter_ids_le (rs : List (Nat × t_query)) (h : Nat) :
    (ids (rs.filter (fun req => decide (req.1 ≠ h))) : Multiset Nat) ≤ (ids rs : Multiset Nat) := by
  rw [Multiset.coe_le]
  exact ((List.filter_sublist rs).map _).subperm

theorem erase_ids_le (rs : List (Nat × t_query)) (h : Nat) (uq : t_query)
    (hl : rs.lookup h = some uq) :
    (uq.id ::ₘ (ids (rs.filter (fun req => decide (req.1 ≠ h))) : Multiset Nat))
      ≤ (ids rs : Multiset Nat) := by
  induction rs with
  | nil => simp at hl
  | cons a t ih =>
    obtain ⟨k0, v0⟩ := a
    by_cases hk : h = k0
    · subst hk
      simp only [List.lookup, beq_self_eq_true, Option.some.injEq] at hl
      subst hl
      simp only [ne_eq, not_true_eq_false, decide_False, Bool.false_eq_true,
        not_false_eq_true, List.filter_cons_of_neg, ids, List.map_cons]
      rw [← Multiset.cons_coe]
      exact Multiset.cons_le_cons _ (filter_ids_le t h)
    · have hb : (h == k0) = false := by simpa using hk
      simp only [List.lookup, hb] at hl
      have hk2 : k0 ≠ h := fun e => hk e.symm
      simp only [ne_eq, hk2, not_false_eq_true, decide_True, List.filter_cons_of_pos, ids,
        List.map_cons]
      rw [← Multiset.cons_coe, ← Multiset.cons_coe, Multiset.cons_swap]
      exact Multiset.cons_le_cons _ (ih hl)

theorem lookup_filter_none (rs : List (Nat × t_query)) (h : Nat) :
    (rs.filter (fun req => decide (req.1 ≠ h))).lookup h = none := by
  induction rs with
  | nil => rfl
  | cons a t ih =>
    obtain ⟨k0, v0⟩ := a
    by_cases hk : k0 = h
    · have hd : decide ((k0, v0).1 ≠ h) = false := by simp [hk]
      rw [List.filter_cons, hd]
      exact ih
    · have hb : (h == k0) = false := by
        simp only [beq_eq_false_iff_ne, ne_eq]
        exact fun e => hk e.symm
      have hd : decide ((k0, v0).1 ≠ h) = true := by simp [hk]
      rw [List.filter_cons, hd]
      simp only [if_true, List.lookup, hb]
      exact ih

theorem known_coe (s : HttpClient) :
    (known s : Multiset Nat)
      = (ids s.rqueue : Multiset Nat) + (ids s.request_set : Multiset Nat)
        + (completed s : Multiset Nat) := by
  simp [known]

theorem inv_of_le {s t : HttpClient} (h : Inv s)
    (hle : (known t : Multiset Nat) ≤ (known s : Multiset Nat))
    (hsub : t.submitted = s.submitted) : Inv t := by
  refine ⟨?_, ?_⟩
  · have := Multiset.nodup_of_le hle (Multiset.coe_nodup.mpr h.1)
    exact Multiset.coe_nodup.mp this
  · intro x hx
    rw [hsub]
    apply h.2
    have : x ∈ (known s : Multiset Nat) := Multiset.mem_of_le hle (Multiset.mem_coe.mpr hx)
    exact Multiset.mem_coe.mp this

theorem inv_init : Inv HttpClient.new := by
  simp [Inv, known, ids, completed, HttpClient.new]

theorem inv_doGET {s : HttpClient} (h : Inv s) (req : Nat) (wrcb donecb : Bool) :
    Inv (doGET s req wrcb donecb) := by
  have hle : (known (doGET s req wrcb donecb) : Multiset Nat)
      ≤ s.submitted ::ₘ (known s : Multiset Nat) := by
    rw [known_coe, known_coe]
    have h1 := assign_ids_le s.rqueue req { id := s.submitted, wrcb := wrcb, donecb := donecb }
    simp only [doGET, doQuery, completed]
    rw [← Multiset.singleton_add, ← add_assoc, ← add_assoc,
      add_comm ({s.submitted} : Multiset Nat) _]
    exact add_le_add_right (add_le_add_right h1 _) _
  have hnew : s.submitted ∉ (known s : Multiset Nat) := by
    intro hm
    exact absurd (h.2 _ (Multiset.mem_coe.mp hm)) (lt_irrefl _)
  have hnd : (s.submitted ::ₘ (known s : Multiset Nat)).Nodup :=
    Multiset.nodup_cons.mpr ⟨hnew, Multiset.coe_nodup.mpr h.1⟩
  refine ⟨Multiset.coe_nodup.mp (Multiset.nodup_of_le hle hnd), ?_⟩
  intro x hx
  have hx2 := Multiset.mem_of_le hle (Multiset.mem_coe.mpr hx)
  rw [Multiset.mem_cons] at hx2
  have hsub : (doGET s req wrcb donecb).submitted = s.submitted + 1 := rfl
  rw [hsub]
  rcases hx2 with e | hm
  · omega
  · have := h.2 _ (Multiset.mem_coe.mp hm)
    omega

theorem inv_workDrain {s : HttpClient} (h : Inv s) : Inv (workDrain s) := by
  refine inv_of_le h ?_ rfl
  rw [known_coe, known_coe]
  simp only [workDrain, completed]
  have h1 := drain_ids_le s.rqueue s.request_set
  have h0 : (ids ([] : List (Nat × t_query)) : Multiset Nat) = 0 := rfl
  rw [h0, zero_add]
  exact add_le_add_right h1 _

theorem inv_workMsg {s : HttpClient} (h : Inv s) (msg : CURLMsg) : Inv (workMsg s msg) := by
  unfold workMsg
  by_cases hd : msg.msg = CURLMSG_DONE
  · rw [if_pos hd]
    cases hl : s.request_set.lookup msg.easy_handle with
    | none => exact inv_of_le h (le_of_eq rfl) rfl
    | some uq =>
      dsimp only
      refine inv_of_le h ?_ rfl
      rw [known_coe, known_coe]
      simp only [completed]
      by_cases hcb : uq.donecb = true
      · simp only [hcb, if_true, List.map_append, List.map_cons, List.map_nil]
        have h1 := erase_ids_le s.request_set msg.easy_handle uq hl
        rw [← Multiset.coe_add, ← Multiset.cons_coe, ← Multiset.singleton_add] at *
        calc (ids s.rqueue : Multiset Nat)
              + (ids (s.request_set.filter (fun req => decide (req.1 ≠ msg.easy_handle)))
                  : Multiset Nat)
              + ((s.done.map Prod.fst : Multiset Nat) + ({uq.id} + (([] : List Nat) : Multiset Nat)))
            = (ids s.rqueue : Multiset Nat)
              + ({uq.id} + (ids (s.request_set.filter
                  (fun req => decide (req.1 ≠ msg.easy_handle))) : Multiset Nat))
              + (s.done.map Prod.fst : Multiset Nat) := by
                simp only [Multiset.coe_nil, add_zero]
                abel
          _ ≤ (ids s.rqueue : Multiset Nat) + (ids s.request_set : Multiset Nat)
              + (s.done.map Prod.fst : Multiset Nat) :=
                add_le_add_right (add_le_add_left h1 _) _
      · simp only [hcb, if_false, Bool.false_eq_true]
        exact add_le_add_right
          (add_le_add_left (filter_ids_le s.request_set msg.easy_handle) _) _
  · rw [if_neg hd]
    exact h

theorem inv_work {s : HttpClient} (h : Inv s) (msgs : List CURLMsg) : Inv (work s msgs) := by
  unfold work
  split
  · exact h
  · have hd := inv_workDrain h
    generalize workDrain s = t at hd
    induction msgs generalizing t with
    | nil => exact hd
    | cons m rest ih => exact ih _ (inv_workMsg hd m)

theorem inv_destructor {s : HttpClient} (h : Inv s) : Inv (destructor s) := by
  refine inv_of_le h ?_ rfl
  rw [known_coe, known_coe]
  simp only [destructor, completed, ids, List.map_nil, Multiset.coe_nil, zero_add]
  exact Multiset.le_add_left _ _

theorem inv_step {s : HttpClient} (h : Inv s) (ev : Event) : Inv (step s ev) := by
  cases ev with
  | submit req wrcb donecb => exact inv_doGET h req wrcb donecb
  | iterate msgs => exact inv_work h msgs
  | shutdown => exact inv_destructor h

theorem inv_run (evs : List Event) : ∀ s : HttpClient, Inv s → Inv (run s evs) := by
  induction evs with
  | nil => intro s h; exact h
  | cons ev rest ih => intro s h; exact ih _ (inv_step h ev)

/-- C12 (at-most-one completion): in the state reached by any run of submissions, worker
iterations and shutdowns from a new client, every request `i` has had its completion
callback called at most once, and only if it was submitted; processing one more message
calls no callback, or the message is `CURLMSG_DONE` for a handle that `request_set` holds,
the callback of the query `uq` stored there is called once with `okcode`, and right after
the handle has no entry in `request_set` and `uq` is neither in flight nor queued; the
destructor calls no callback, and neither does any worker pass after it. -/
theorem C12_at_most_one_completion (evs : List Event) (msg : CURLMsg) (i : Nat)
    (msgs : List CURLMsg) :
    (completed (run HttpClient.new evs)).count i ≤ 1 ∧
    (i ∈ completed (run HttpClient.new evs) → i < (run HttpClient.new evs).submitted) ∧
    ((workMsg (run HttpClient.new evs) msg).done = (run HttpClient.new evs).done ∨
      ∃ uq, msg.msg = CURLMSG_DONE ∧
        (run HttpClient.new evs).request_set.lookup msg.easy_handle = some uq ∧
        (workMsg (run HttpClient.new evs) msg).done
          = (run HttpClient.new evs).done ++ [(uq.id, decide (msg.result = CURLE_OK))] ∧
        (workMsg (run HttpClient.new evs) msg).request_set.lookup msg.easy_handle = none ∧
        uq.id ∉ ids (workMsg (run HttpClient.new evs) msg).request_set ∧
        uq.id ∉ ids (workMsg (run HttpClient.new evs) msg).rqueue) ∧
    (destructor (run HttpClient.new evs)).done = (run HttpClient.new evs).done ∧
    (work (destructor (run HttpClient.new evs)) msgs).done = (run HttpClient.new evs).done := by
  have hinv := inv_run evs HttpClient.new inv_init
  generalize run HttpClient.new evs = s at hinv ⊢
  refine ⟨?_, ?_, ?_, rfl, rfl⟩
  · have hnd : (completed s).Nodup := by
      have := hinv.1
      unfold known at this
      exact (List.nodup_append.mp this).2.1
    exact List.nodup_iff_count_le_one.mp hnd i
  · intro hi
    apply hinv.2
    unfold known
    exact List.mem_append_right _ hi
  · by_cases hd : msg.msg = CURLMSG_DONE
    · cases hl : s.request_set.lookup msg.easy_handle with
      | none =>
        left
        simp only [workMsg, hd, if_true, hl]
      | some uq =>
        by_cases hcb : uq.donecb = true
        · right
          have hinv2 := inv_workMsg hinv msg
          have hw : workMsg s msg =
              { s with
                multi_handle := s.multi_handle.filter (fun h => decide (h ≠ msg.easy_handle))
                done := s.done ++ [(uq.id, decide (msg.result = CURLE_OK))]
                request_set :=
                  s.request_set.filter (fun req => decide (req.1 ≠ msg.easy_handle)) } := by
            simp only [workMsg, hd, if_true, hl, hcb]
          rw [hw] at hinv2 ⊢
          have hnd := hinv2.1
          simp only [known, completed, List.map_append, List.map_cons, List.map_nil] at hnd
          have hmem : uq.id ∈ s.done.map Prod.fst ++ [uq.id] := by simp
          refine ⟨uq, hd, rfl, rfl, lookup_filter_none _ _, ?_, ?_⟩
          · intro hin
            have h1 := (List.nodup_append.mp hnd).2.2
            exact h1 (List.mem_append_right _ hin) hmem
          · intro hin
            have h1 := (List.nodup_append.mp hnd).2.2
            exact h1 (List.mem_append_left _ hin) hmem
        · left
          simp only [workMsg, hd, if_true, hl, hcb, if_false, Bool.false_eq_true]
    · left
      simp only [workMsg, hd, if_false]

end httpclient

namespace lru11.Cache

variable {K V : Type} [DecidableEq K]

/-- With `maxSize_ = 0`, a run of inserts of distinct new keys that stays within the
elasticity prunes nothing. -/
theorem insertAll_within (e : Nat) (he : e < SIZE_W) (ops : List (K × V)) :
    ∀ c : Cache K V, c.Inv → c.maxSize_ = 0 → c.elasticity_ = e →
      (ops.map Prod.fst).Nodup → (∀ p ∈ ops, p.1 ∉ c.cache_) → c.size + ops.length ≤ e →
      (insertAll c ops).Inv ∧ (insertAll c ops).maxSize_ = 0 ∧
        (insertAll c ops).elasticity_ = e ∧ (insertAll c ops).size = c.size + ops.length ∧
        ∀ k ∈ (insertAll c ops).cache_, k ∈ c.cache_ ∨ k ∈ ops.map Prod.fst := by
  induction ops with
  | nil =>
    intro c h1 h2 h3 _ _ _
    exact ⟨h1, h2, h3, rfl, fun k hk => Or.inl hk⟩
  | cons p t ih =>
    intro c h1 h2 h3 hnd hnew hsz
    simp only [List.map_cons, List.nodup_cons] at hnd
    simp only [List.length_cons] at hsz
    have hk : p.1 ∉ c.cache_ := hnew p (List.mem_cons_self _ _)
    have hA : c.getMaxAllowedSize = e := by
      simp only [getMaxAllowedSize, h2, h3, zero_add]
      exact Nat.mod_eq_of_lt he
    have hs : ¬ c.size + 1 > c.getMaxAllowedSize := by
      rw [hA]
      omega
    have hins : c.insert p.1 p.2
        = { c with keys_ := (p.1, p.2) :: c.keys_, cache_ := p.1 :: c.cache_ } := by
      unfold insert
      rw [insertAux_grow p.2 hk hs]
    have hnew2 : ∀ q ∈ t, q.1 ∉ (c.insert p.1 p.2).cache_ := by
      intro q hq hm
      rw [hins] at hm
      simp only [List.mem_cons] at hm
      rcases hm with e1 | hm
      · exact hnd.1 (e1 ▸ List.mem_map_of_mem _ hq)
      · exact hnew q (List.mem_cons_of_mem _ hq) hm
    have hsz2 : (c.insert p.1 p.2).size + t.length ≤ e := by
      rw [hins]
      simp only [size, List.length_cons] at hsz ⊢
      omega
    obtain ⟨r1, r2, r3, r4, r5⟩ := ih (c.insert p.1 p.2) (insert_inv h1 _ _)
      ((insert_limits c p.1 p.2).1.trans h2) ((insert_limits c p.1 p.2).2.trans h3) hnd.2
      hnew2 hsz2
    refine ⟨r1, r2, r3, ?_, ?_⟩
    · show (insertAll (c.insert p.1 p.2) t).size = c.size + (t.length + 1)
      rw [r4, hins]
      simp only [size, List.length_cons]
      omega
    · intro k hk2
      rcases r5 k hk2 with hm | hm
      · rw [hins] at hm
        simp only [List.mem_cons] at hm
        rcases hm with e1 | hm
        · right; rw [e1]; simp
        · left; exact hm
      · right
        simp only [List.map_cons, List.mem_cons]
        exact Or.inr hm

/-- C11 at its failing inputs: in a cache built with `maxSize = 0` and any elasticity `e`,
the insert of the `(e + 1)`-th distinct key prunes to size 0: after a run of `e + 1`
inserts of distinct keys the cache is empty and contains none of the keys. -/
theorem C11_unbounded_mode_divergence (e : Nat) (he : e < SIZE_W) (ops : List (K × V))
    (hd : (ops.map Prod.fst).Nodup) (hlen : ops.length = e + 1) :
    (insertAll (Cache.new 0 e) ops).size = 0 ∧
    ∀ k, (insertAll (Cache.new 0 e) ops).contains k = false := by
  have hne : ops ≠ [] := by
    intro h0
    rw [h0] at hlen
    simp at hlen
  have hsplit : ops = ops.dropLast ++ [ops.getLast hne] :=
    (List.dropLast_append_getLast hne).symm
  generalize ops.dropLast = front at hsplit
  generalize ops.getLast hne = last at hsplit
  subst hsplit
  simp only [List.map_append, List.map_cons, List.map_nil] at hd
  simp only [List.length_append, List.length_cons, List.length_nil] at hlen
  have hfront : front.length = e := by omega
  obtain ⟨r1, r2, r3, r4, r5⟩ := insertAll_within e he front (Cache.new 0 e) (inv_new 0 e)
    rfl rfl (List.Nodup.of_append_left hd) (fun p _ hm => by simp [Cache.new] at hm)
    (by simp [size, Cache.new, hfront])
  have hrun : insertAll (Cache.new 0 e) (front ++ [last])
      = (insertAll (Cache.new 0 e) front).insert last.1 last.2 := by
    simp [insertAll, List.foldl_append]
  have hk : last.1 ∉ (insertAll (Cache.new 0 e : Cache K V) front).cache_ := by
    intro hm
    rcases r5 _ hm with h0 | h0
    · simp [Cache.new] at h0
    · exact (List.nodup_append.mp hd).2.2 h0 (by simp)
  have hA : (insertAll (Cache.new 0 e : Cache K V) front).getMaxAllowedSize = e := by
    simp only [getMaxAllowedSize, r2, r3, zero_add]
    exact Nat.mod_eq_of_lt he
  have hsize : (insertAll (Cache.new 0 e) (front ++ [last])).size = 0 := by
    rw [hrun, insert_size r1, if_neg hk, hA, r4, r2]
    simp [size, Cache.new, hfront]
  refine ⟨hsize, fun k => ?_⟩
  have hnil : (insertAll (Cache.new 0 e) (front ++ [last])).cache_ = [] :=
    List.length_eq_zero.mp hsize
  simp [contains, hnil]

/-- C11 for the cache `Cache(0, 1)` and the inserts of keys 1 and 2: the second insert
empties the cache. -/
theorem C11_unbounded_mode_divergence_witness :
    ((1 : Nat) < SIZE_W ∧ (List.map Prod.fst [((1 : Nat), (10 : Nat)), (2, 20)]).Nodup ∧
      [((1 : Nat), (10 : Nat)), (2, 20)].length = 1 + 1) ∧
    ((insertAll (Cache.new 0 1) [((1 : Nat), (10 : Nat)), (2, 20)]).size = 0 ∧
     ∀ k, (insertAll (Cache.new 0 1) [((1 : Nat), (10 : Nat)), (2, 20)]).contains k = false) :=
  ⟨⟨by decide, by decide, by decide⟩,
    C11_unbounded_mode_divergence 1 (by decide) [(1, 10), (2, 20)] (by decide) (by decide)⟩

end lru11.Cache
